import Mathlib

/-!
# Verification of the tapirus unit-generator graph runtime

A shallow embedding of the tapirus audio synthesis engine
(`src/ugens/core.rs`, `src/ugens/osc.rs`, `src/ugens/fx.rs`,
`src/soundsystem.rs`, `src/tapirlisp/dump.rs`).

Modelling conventions:
* Rust `f64` is modelled as `ℝ`; `f64 -> u64` casts (truncation toward zero,
  saturating at zero for negative inputs) are modelled by `f64toU64`;
  the `%` operator on `f64` (an fmod that truncates toward zero) is `fmod`.
* `Aug(Arc<Mutex<UGen>>)` together with its `UGen { last_tick, last_sig, ug }`
  payload is flattened into the inductive `AugT`: each constructor corresponds
  to one `UG` variant and carries the two memo fields of the wrapping `UGen`
  (`lt` = `last_tick`, `ls` = `last_sig`) in front of the variant fields.
  The graph is modelled as a tree (no aliasing); the `id` field of `UGen` is
  unused by the code and omitted.
* Fallible operations return `Except`: a Rust `panic!` in the audio path is
  the error case of `RunStop`, and `Operate` errors are `OperateError`.
-/

noncomputable section

/-- Truncation toward zero of a real number, as Rust's `f64::trunc`. -/
def rtrunc (x : ℝ) : ℤ := if 0 ≤ x then ⌊x⌋ else ⌈x⌉

/-- Rust's `%` on `f64`: `x - y * (x / y).trunc()`. -/
def fmod (x y : ℝ) : ℝ := x - y * (rtrunc (x / y) : ℝ)

/-- Rust's `f64::fract`: `x - x.trunc()`. -/
def fract (x : ℝ) : ℝ := x - (rtrunc x : ℝ)

/-- Rust's `as u64` cast from `f64`: truncation toward zero, negative values
saturate to zero (large values are modelled as exact, without the upper
saturation bound). -/
def f64toU64 (x : ℝ) : ℕ := (rtrunc x).toNat

/-- `linear_interpol` from `src/ugens/osc.rs` (lines 1223-1226):
`let r = r % 1.0; v1 * r + v2 * (1.0 - r)`.  The earlier sample `v1` is
weighted by `r`. -/
def linearInterpol (v1 v2 r : ℝ) : ℝ :=
  let r' := fmod r 1
  v1 * r' + v2 * (1 - r')

/-- Modelled from the spec: `rand::SmallRng` is an external crate dependency,
not part of this repository.  Spec §4.4 only requires a deterministic
pseudo-random stream, modelled here as a 64-bit linear congruential step. -/
def rngNext (s : ℕ) : ℕ := (6364136223846793005 * s + 1442695040888963407) % (2 ^ 64)

/-- Modelled from the spec: the `[0,1)` output of the external PRNG,
derived from the state. -/
def rngOut (s : ℕ) : ℝ := ((s % 2 ^ 53 : ℕ) : ℝ) / (2 ^ 53 : ℝ)

/-- Modelled from the spec: time signature (`src/musical_time/time.rs` is not
among the provided sources); fields per spec §3. -/
structure Measure where
  beat : ℕ
  note : ℕ

/-- Modelled from the spec: derived musical position, per spec §3. -/
structure MPos where
  bar : ℕ
  beat : ℕ
  pos : ℝ

/-- Modelled from the spec: the transport (`src/musical_time/time.rs` is not
among the provided sources); fields per spec §3. -/
structure Transport where
  sampleRate : ℕ
  tick : ℕ
  bpm : ℝ
  measure : Measure
  pos : MPos

/-- Modelled from the spec (§4.1): `inc` increments `tick` by 1 and advances
the derived musical position by `bpm / (60 · sample_rate)` beats, carrying
into `beat` when the fraction reaches 1.0 and into `bar` when the beat count
reaches `measure.beat`. -/
def Transport.inc (t : Transport) : Transport :=
  let p := t.pos.pos + t.bpm / (60 * (t.sampleRate : ℝ))
  if 1 ≤ p then
    let beat' := t.pos.beat + 1
    if beat' = t.measure.beat then
      { t with tick := t.tick + 1, pos := ⟨t.pos.bar + 1, 0, p - 1⟩ }
    else
      { t with tick := t.tick + 1, pos := ⟨t.pos.bar, beat', p - 1⟩ }
  else
    { t with tick := t.tick + 1, pos := { t.pos with pos := p } }

/-- The ways the audio path can abort (Rust panics):
`notATable` is the explicit panic in `WaveTable::proc`
(`src/ugens/osc.rs` line 1365), `indexOutOfBounds` is the implicit panic of
indexing an empty table. -/
inductive RunStop where
  | notATable
  | indexOutOfBounds
deriving DecidableEq

/-- The `Operate` error taxonomy from `src/ugens/core.rs` (lines 42-49). -/
inductive OperateError where
  | notUgen
  | cannotParsePattern (op : String) (input : String)
  | cannotParseNumber (op : String) (input : String)
  | paramNotFound (op : String)
  | cannotRepresentAsString (op : String)
deriving DecidableEq

/-- The summing loop of `Delay::proc` (`src/ugens/fx.rs` lines 431-439):
`while dt != 0 && n * dt < buffer.len() { dl += buffer[n*dt].0 * fb^n; ... }`. -/
def delayLoop (buffer : List (ℝ × ℝ)) (dt : ℕ) (fb : ℝ) (n : ℕ) : ℝ × ℝ :=
  if h : dt ≠ 0 ∧ n * dt < buffer.length then
    let s := buffer.getD (n * dt) (0, 0)
    let rest := delayLoop buffer dt fb (n + 1)
    (s.1 * fb ^ n + rest.1, s.2 * fb ^ n + rest.2)
  else (0, 0)
termination_by buffer.length - n * dt
decreasing_by
  rcases h with ⟨h1, h2⟩
  have h3 : (n + 1) * dt = n * dt + dt := Nat.succ_mul n dt
  have h4 : 0 < dt := Nat.pos_of_ne_zero h1
  omega

/-- The unit-generator graph.  Each constructor is one `UG` variant
(`src/ugens/core.rs` lines 89-96 together with the concrete structs of
`src/ugens/osc.rs` and `src/ugens/fx.rs`), flattened with the memo fields
`lt`/`ls` of the wrapping `UGen` (`src/ugens/core.rs` lines 98-103).
`clip`, `gain` and `offset` are the `misc.rs` processors used by
`Phase::make_root`; their structure comes from `src/ugens/osc.rs`
(lines 1046-1056) while their bodies are modelled from the spec (§4.4),
since `src/ugens/misc.rs` is not among the provided sources. -/
inductive AugT : Type where
  | val (lt : ℕ) (ls : ℝ × ℝ) (v : ℝ)
  | tab (lt : ℕ) (ls : ℝ × ℝ) (vs : List ℝ)
  | pat (lt : ℕ) (ls : ℝ × ℝ) (ts : List String)
  | sine (lt : ℕ) (ls : ℝ × ℝ) (initPh freq : AugT) (ph : ℝ)
  | tri (lt : ℕ) (ls : ℝ × ℝ) (initPh freq : AugT) (ph : ℝ)
  | saw (lt : ℕ) (ls : ℝ × ℝ) (initPh freq : AugT) (ph : ℝ)
  | pulse (lt : ℕ) (ls : ℝ × ℝ) (initPh freq duty : AugT) (ph : ℝ)
  | rand (lt : ℕ) (ls : ℝ × ℝ) (rng : ℕ) (freq : AugT) (count : ℕ) (v : ℝ)
  | phase (lt : ℕ) (ls : ℝ × ℝ) (root osc : AugT)
  | wavetable (lt : ℕ) (ls : ℝ × ℝ) (table ph : AugT)
  | oneshot (lt : ℕ) (ls : ℝ × ℝ) (osc eg : AugT)
  | lpf (lt : ℕ) (ls : ℝ × ℝ) (freq q src : AugT)
        (inbuf0 inbuf1 outbuf0 outbuf1 : ℝ × ℝ)
  | delay (lt : ℕ) (ls : ℝ × ℝ) (time feedback mix src : AugT)
          (buffer : List (ℝ × ℝ))
  | clip (lt : ℕ) (ls : ℝ × ℝ) (minv maxv src : AugT)
  | gain (lt : ℕ) (ls : ℝ × ℝ) (g src : AugT)
  | offset (lt : ℕ) (ls : ℝ × ℝ) (v src : AugT)

namespace AugT

/-- The `last_tick` field of the wrapping `UGen`. -/
def lastTick : AugT → ℕ
  | .val lt _ _ => lt
  | .tab lt _ _ => lt
  | .pat lt _ _ => lt
  | .sine lt _ _ _ _ => lt
  | .tri lt _ _ _ _ => lt
  | .saw lt _ _ _ _ => lt
  | .pulse lt _ _ _ _ _ => lt
  | .rand lt _ _ _ _ _ => lt
  | .phase lt _ _ _ => lt
  | .wavetable lt _ _ _ => lt
  | .oneshot lt _ _ _ => lt
  | .lpf lt _ _ _ _ _ _ _ _ => lt
  | .delay lt _ _ _ _ _ _ => lt
  | .clip lt _ _ _ _ => lt
  | .gain lt _ _ _ => lt
  | .offset lt _ _ _ => lt

/-- The `last_sig` field of the wrapping `UGen`. -/
def lastSig : AugT → ℝ × ℝ
  | .val _ ls _ => ls
  | .tab _ ls _ => ls
  | .pat _ ls _ => ls
  | .sine _ ls _ _ _ => ls
  | .tri _ ls _ _ _ => ls
  | .saw _ ls _ _ _ => ls
  | .pulse _ ls _ _ _ _ => ls
  | .rand _ ls _ _ _ _ => ls
  | .phase _ ls _ _ => ls
  | .wavetable _ ls _ _ => ls
  | .oneshot _ ls _ _ => ls
  | .lpf _ ls _ _ _ _ _ _ _ => ls
  | .delay _ ls _ _ _ _ _ => ls
  | .clip _ ls _ _ _ => ls
  | .gain _ ls _ _ => ls
  | .offset _ ls _ _ => ls

/-- Overwrite the memo fields of the wrapping `UGen`
(the assignments `last_tick = tick; last_sig = sig` in `UGen::proc`,
`src/ugens/core.rs` lines 386-388). -/
def withMemo (g : AugT) (lt : ℕ) (ls : ℝ × ℝ) : AugT :=
  match g with
  | .val _ _ v => .val lt ls v
  | .tab _ _ vs => .tab lt ls vs
  | .pat _ _ ts => .pat lt ls ts
  | .sine _ _ p1 p2 ph => .sine lt ls p1 p2 ph
  | .tri _ _ p1 p2 ph => .tri lt ls p1 p2 ph
  | .saw _ _ p1 p2 ph => .saw lt ls p1 p2 ph
  | .pulse _ _ p1 p2 p3 ph => .pulse lt ls p1 p2 p3 ph
  | .rand _ _ rng fr c v => .rand lt ls rng fr c v
  | .phase _ _ root osc => .phase lt ls root osc
  | .wavetable _ _ table ph => .wavetable lt ls table ph
  | .oneshot _ _ osc eg => .oneshot lt ls osc eg
  | .lpf _ _ fr q src i0 i1 o0 o1 => .lpf lt ls fr q src i0 i1 o0 o1
  | .delay _ _ tm fb mx src buf => .delay lt ls tm fb mx src buf
  | .clip _ _ a b src => .clip lt ls a b src
  | .gain _ _ a src => .gain lt ls a src
  | .offset _ _ a src => .offset lt ls a src

/-- `Osc::set_ph` dispatched through the `UG` variant
(`src/ugens/core.rs` lines 264-269 and the per-oscillator impls):
oscillators overwrite their accumulator, `Phase`/`WaveTable`/`OneshotOsc`
delegate to their inner node's payload, everything else is a no-op. -/
def setPh (g : AugT) (p : ℝ) : AugT :=
  match g with
  | .sine lt ls p1 p2 _ => .sine lt ls p1 p2 p
  | .tri lt ls p1 p2 _ => .tri lt ls p1 p2 p
  | .saw lt ls p1 p2 _ => .saw lt ls p1 p2 p
  | .pulse lt ls p1 p2 p3 _ => .pulse lt ls p1 p2 p3 p
  | .rand lt ls rng fr c v => .rand lt ls rng fr c v
  | .phase lt ls root osc => .phase lt ls root (osc.setPh p)
  | .wavetable lt ls table ph => .wavetable lt ls table (ph.setPh p)
  | .oneshot lt ls osc eg => .oneshot lt ls (osc.setPh p) eg
  | g => g

/-- `Osc::get_ph` dispatched through the `UG` variant
(`src/ugens/core.rs` lines 271-276 and the per-oscillator impls). -/
def getPh : AugT → ℝ
  | .sine _ _ _ _ ph => ph
  | .tri _ _ _ _ ph => ph
  | .saw _ _ _ _ ph => ph
  | .pulse _ _ _ _ _ ph => ph
  | .rand _ _ _ _ _ _ => 0
  | .phase _ _ _ osc => osc.getPh
  | .wavetable _ _ _ ph => ph.getPh
  | .oneshot _ _ osc _ => osc.getPh
  | _ => 0

mutual

/-- `UGen::proc` (`src/ugens/core.rs` lines 381-392): if `last_tick` equals
the transport tick the cached `last_sig` is returned and the variant body is
not entered; otherwise the variant body runs and the result is stored in
`last_tick` / `last_sig`. -/
def proc (g : AugT) (t : Transport) : Except RunStop ((ℝ × ℝ) × AugT) :=
  if g.lastTick = t.tick then .ok (g.lastSig, g)
  else
    match procUg g t with
    | .error e => .error e
    | .ok (sig, g') => .ok (sig, g'.withMemo t.tick sig)
termination_by (sizeOf g, 1)

/-- `UG::proc` (`src/ugens/core.rs` lines 250-261) together with the concrete
`Proc` impl of every variant: the un-memoized variant body. -/
def procUg (g : AugT) (t : Transport) : Except RunStop ((ℝ × ℝ) × AugT) :=
  match g with
  | .val lt ls v => .ok ((v, v), .val lt ls v)
  | .tab lt ls vs => .ok ((0, 0), .tab lt ls vs)
  | .pat lt ls ts => .ok ((0, 0), .pat lt ls ts)
  | .sine lt ls p1 p2 ph =>
    -- Sine::proc, src/ugens/osc.rs lines 465-474
    match proc p1 t with
    | .error e => .error e
    | .ok (s1, p1') =>
      let v := Real.sin (s1.1 + ph)
      let phDiff := (t.sampleRate : ℝ) / Real.pi
      match proc p2 t with
      | .error e => .error e
      | .ok (s2, p2') => .ok ((v, v), .sine lt ls p1' p2' (ph + s2.1 / phDiff))
  | .tri lt ls p1 p2 ph =>
    -- Tri::proc, src/ugens/osc.rs lines 627-645
    match proc p1 t with
    | .error e => .error e
    | .ok (s1, p1') =>
      let phTotal := s1.1 + ph
      let phDiff := (t.sampleRate : ℝ) * 2
      match proc p2 t with
      | .error e => .error e
      | .ok (s2, p2') =>
        let x := fmod phTotal 1
        let v :=
          if 3 / 4 ≤ x then 4 * x - 4
          else if 1 / 4 ≤ x ∧ x < 3 / 4 then -4 * x + 2
          else 4 * x
        .ok ((v, v), .tri lt ls p1' p2' (ph + s2.1 / phDiff))
  | .saw lt ls p1 p2 ph =>
    -- Saw::proc, src/ugens/osc.rs lines 798-813
    match proc p1 t with
    | .error e => .error e
    | .ok (s1, p1') =>
      let phTotal := s1.1 + ph
      let phDiff := (t.sampleRate : ℝ) * 2
      match proc p2 t with
      | .error e => .error e
      | .ok (s2, p2') =>
        let x := fmod phTotal 1
        let v := if 1 / 2 ≤ x then 2 * x - 2 else 2 * x
        .ok ((v, v), .saw lt ls p1' p2' (ph + s2.1 / phDiff))
  | .pulse lt ls p1 p2 p3 ph =>
    -- Pulse::proc, src/ugens/osc.rs lines 997-1013
    match proc p1 t with
    | .error e => .error e
    | .ok (s1, p1') =>
      let phTotal := s1.1 + ph
      match proc p3 t with
      | .error e => .error e
      | .ok (s3, p3') =>
        let duty := s3.1
        let phDiff := (t.sampleRate : ℝ) * 2
        match proc p2 t with
        | .error e => .error e
        | .ok (s2, p2') =>
          let x := fmod phTotal 1
          let v := if x < duty then (1 : ℝ) else -1
          .ok ((v, v), .pulse lt ls p1' p2' p3' (ph + s2.1 / phDiff))
  | .rand lt ls rng fr c v =>
    -- Rand::proc, src/ugens/osc.rs lines 305-315
    match proc fr t with
    | .error e => .error e
    | .ok (f, fr') =>
      if f64toU64 f.1 ≤ c then
        let rng' := rngNext rng
        let v' := rngOut rng'
        .ok ((v', v'), .rand lt ls rng' fr' 0 v')
      else
        .ok ((v, v), .rand lt ls rng fr' (c + 1) v)
  | .phase lt ls root osc =>
    -- Phase::proc, src/ugens/osc.rs lines 1151-1155: proc of the root chain
    match proc root t with
    | .error e => .error e
    | .ok (sig, root') => .ok (sig, .phase lt ls root' osc)
  | .wavetable lt ls table ph =>
    -- WaveTable::proc, src/ugens/osc.rs lines 1354-1368
    match table with
    | .tab tlt tls tbl =>
      match proc ph t with
      | .error e => .error e
      | .ok (x, ph') =>
        let len : ℕ := tbl.length
        if len = 0 then .error .indexOutOfBounds
        else
          let p := x.1 * (len : ℝ)
          let pos1 := f64toU64 (fmod ((⌊p⌋ : ℤ) : ℝ) (len : ℝ))
          let pos2 := f64toU64 (fmod ((⌈p⌉ : ℤ) : ℝ) (len : ℝ))
          let v := linearInterpol (tbl.getD pos1 0) (tbl.getD pos2 0) (fract p)
          .ok ((v, v), .wavetable lt ls (.tab tlt tls tbl) ph')
    | _ => .error .notATable
  | .oneshot lt ls osc eg =>
    -- OneshotOsc::proc, src/ugens/osc.rs lines 144-178.  The nested if-let
    -- reads `ph`/`state` only when `osc` is `UG::Osc` AND `eg` is `UG::Eg`;
    -- no `Eg` implementation is among the provided sources, so `state` is
    -- always `ADSR::None` and the Release/None branch runs: reset the inner
    -- oscillator phase and emit silence.
    match proc eg t with
    | .error e => .error e
    | .ok (_, eg') => .ok ((0, 0), .oneshot lt ls (osc.setPh 0) eg')
  | .lpf lt ls fr q src i0 i1 o0 o1 =>
    -- LPFilter::proc, src/ugens/fx.rs lines 176-214
    match proc fr t with
    | .error e => .error e
    | .ok (f, fr') =>
      match proc q t with
      | .error e => .error e
      | .ok (qs, q') =>
        match proc src t with
        | .error e => .error e
        | .ok (s, src') =>
          let w := 2 * Real.pi * f.1 / (t.sampleRate : ℝ)
          let sw := Real.sin w
          let cw := Real.cos w
          let a := sw / (2 * qs.1)
          let b0 := (1 - cw) / 2
          let b1 := 1 - cw
          let b2 := (1 - cw) / 2
          let a0 := 1 + a
          let a1 := -2 * cw
          let a2 := 1 - a
          let l := b0 / a0 * s.1 + b1 / a0 * i0.1 + b2 / a0 * i1.1
                   - a1 / a0 * o0.1 - a2 / a0 * o1.1
          let r := b0 / a0 * s.2 + b1 / a0 * i0.2 + b2 / a0 * i1.2
                   - a1 / a0 * o0.2 - a2 / a0 * o1.2
          .ok ((l, r), .lpf lt ls fr' q' src' s i0 (l, r) o0)
  | .delay lt ls tm fb mx src buf =>
    -- Delay::proc, src/ugens/fx.rs lines 421-443
    let buf1 := buf.dropLast
    match proc src t with
    | .error e => .error e
    | .ok (sig, src') =>
      let buf2 := sig :: buf1
      match proc tm t with
      | .error e => .error e
      | .ok (tms, tm') =>
        let dt := f64toU64 ((t.sampleRate : ℝ) * tms.1)
        match proc fb t with
        | .error e => .error e
        | .ok (fbs, fb') =>
          match proc mx t with
          | .error e => .error e
          | .ok (mxs, mx') =>
            let d := delayLoop buf2 dt fbs.1 1
            .ok ((sig.1 + d.1 * mxs.1, sig.2 + d.2 * mxs.1),
                 .delay lt ls tm' fb' mx' src' buf2)
  | .clip lt ls mn mx src =>
    -- Modelled from the spec (§4.4 Phase): Clip clamps the source into
    -- [min, max]; src/ugens/misc.rs is not among the provided sources.
    match proc mn t with
    | .error e => .error e
    | .ok (mns, mn') =>
      match proc mx t with
      | .error e => .error e
      | .ok (mxs, mx') =>
        match proc src t with
        | .error e => .error e
        | .ok (s, src') =>
          let cl := fun x => min (max x mns.1) mxs.1
          .ok ((cl s.1, cl s.2), .clip lt ls mn' mx' src')
  | .gain lt ls gv src =>
    -- Modelled from the spec (§4.4 Phase): Gain multiplies the source.
    match proc gv t with
    | .error e => .error e
    | .ok (gs, gv') =>
      match proc src t with
      | .error e => .error e
      | .ok (s, src') => .ok ((gs.1 * s.1, gs.1 * s.2), .gain lt ls gv' src')
  | .offset lt ls ov src =>
    -- Modelled from the spec (§4.4 Phase): Offset adds a constant.
    match proc ov t with
    | .error e => .error e
    | .ok (os, ov') =>
      match proc src t with
      | .error e => .error e
      | .ok (s, src') => .ok ((s.1 + os.1, s.2 + os.1), .offset lt ls ov' src')
termination_by (sizeOf g, 0)

end

end AugT

/-- `Aug::val` (`src/ugens/core.rs` lines 401-403): a fresh `Val` node wrapped
in `UGen::new` (`last_tick = 0`, `last_sig = (0.0, 0.0)`). -/
def augVal (v : ℝ) : AugT := .val 0 (0, 0) v

namespace AugT

theorem lastTick_withMemo (g : AugT) (lt : ℕ) (ls : ℝ × ℝ) :
    (g.withMemo lt ls).lastTick = lt := by
  cases g <;> rfl

theorem lastSig_withMemo (g : AugT) (lt : ℕ) (ls : ℝ × ℝ) :
    (g.withMemo lt ls).lastSig = ls := by
  cases g <;> rfl

/-- Well-formedness for the audio path: every `wavetable` node's `table`
parameter holds a nonempty `Tab`. -/
def wfB : AugT → Bool
  | .val _ _ _ => true
  | .tab _ _ _ => true
  | .pat _ _ _ => true
  | .sine _ _ p1 p2 _ => wfB p1 && wfB p2
  | .tri _ _ p1 p2 _ => wfB p1 && wfB p2
  | .saw _ _ p1 p2 _ => wfB p1 && wfB p2
  | .pulse _ _ p1 p2 p3 _ => wfB p1 && wfB p2 && wfB p3
  | .rand _ _ _ fr _ _ => wfB fr
  | .phase _ _ root osc => wfB root && wfB osc
  | .wavetable _ _ table ph =>
    (match table with
     | .tab _ _ tbl => !tbl.isEmpty
     | _ => false) && wfB ph
  | .oneshot _ _ osc eg => wfB osc && wfB eg
  | .lpf _ _ fr q src _ _ _ _ => wfB fr && wfB q && wfB src
  | .delay _ _ tm fb mx src _ => wfB tm && wfB fb && wfB mx && wfB src
  | .clip _ _ a b src => wfB a && wfB b && wfB src
  | .gain _ _ a src => wfB a && wfB src
  | .offset _ _ a src => wfB a && wfB src

theorem proc_ok_of_procUg_ok (g : AugT) (t : Transport)
    (h : ∃ r, procUg g t = .ok r) : ∃ r, proc g t = .ok r := by
  obtain ⟨⟨sig, g'⟩, h⟩ := h
  rw [proc]
  split
  · exact ⟨_, rfl⟩
  · rw [h]
    exact ⟨_, rfl⟩

theorem procUg_total_of_wf (g : AugT) :
    ∀ t : Transport, wfB g = true → ∃ r, procUg g t = .ok r := by
  induction g with
  | val lt ls v => intro t _; simp only [procUg]; exact ⟨_, rfl⟩
  | tab lt ls vs => intro t _; simp only [procUg]; exact ⟨_, rfl⟩
  | pat lt ls ts => intro t _; simp only [procUg]; exact ⟨_, rfl⟩
  | sine lt ls p1 p2 ph ih1 ih2 =>
    intro t hwf
    simp only [wfB, Bool.and_eq_true] at hwf
    obtain ⟨⟨s1, p1'⟩, h1⟩ := proc_ok_of_procUg_ok p1 t (ih1 t hwf.1)
    obtain ⟨⟨s2, p2'⟩, h2⟩ := proc_ok_of_procUg_ok p2 t (ih2 t hwf.2)
    simp only [procUg, h1, h2]
    exact ⟨_, rfl⟩
  | tri lt ls p1 p2 ph ih1 ih2 =>
    intro t hwf
    simp only [wfB, Bool.and_eq_true] at hwf
    obtain ⟨⟨s1, p1'⟩, h1⟩ := proc_ok_of_procUg_ok p1 t (ih1 t hwf.1)
    obtain ⟨⟨s2, p2'⟩, h2⟩ := proc_ok_of_procUg_ok p2 t (ih2 t hwf.2)
    simp only [procUg, h1, h2]
    exact ⟨_, rfl⟩
  | saw lt ls p1 p2 ph ih1 ih2 =>
    intro t hwf
    simp only [wfB, Bool.and_eq_true] at hwf
    obtain ⟨⟨s1, p1'⟩, h1⟩ := proc_ok_of_procUg_ok p1 t (ih1 t hwf.1)
    obtain ⟨⟨s2, p2'⟩, h2⟩ := proc_ok_of_procUg_ok p2 t (ih2 t hwf.2)
    simp only [procUg, h1, h2]
    exact ⟨_, rfl⟩
  | pulse lt ls p1 p2 p3 ph ih1 ih2 ih3 =>
    intro t hwf
    simp only [wfB, Bool.and_eq_true] at hwf
    obtain ⟨⟨s1, p1'⟩, h1⟩ := proc_ok_of_procUg_ok p1 t (ih1 t hwf.1.1)
    obtain ⟨⟨s2, p2'⟩, h2⟩ := proc_ok_of_procUg_ok p2 t (ih2 t hwf.1.2)
    obtain ⟨⟨s3, p3'⟩, h3⟩ := proc_ok_of_procUg_ok p3 t (ih3 t hwf.2)
    simp only [procUg, h1, h2, h3]
    exact ⟨_, rfl⟩
  | rand lt ls rng fr c v ih =>
    intro t hwf
    simp only [wfB] at hwf
    obtain ⟨⟨f, fr'⟩, h⟩ := proc_ok_of_procUg_ok fr t (ih t hwf)
    simp only [procUg, h]
    split <;> exact ⟨_, rfl⟩
  | phase lt ls root osc ih1 ih2 =>
    intro t hwf
    simp only [wfB, Bool.and_eq_true] at hwf
    obtain ⟨⟨s, root'⟩, h⟩ := proc_ok_of_procUg_ok root t (ih1 t hwf.1)
    simp only [procUg, h]
    exact ⟨_, rfl⟩
  | wavetable lt ls table ph ih1 ih2 =>
    intro t hwf
    simp only [wfB, Bool.and_eq_true] at hwf
    obtain ⟨htab, hph⟩ := hwf
    obtain ⟨⟨x, ph'⟩, h⟩ := proc_ok_of_procUg_ok ph t (ih2 t hph)
    cases table with
    | tab tlt tls tbl =>
      simp only [List.isEmpty_iff, Bool.not_eq_eq_eq_not, Bool.not_true] at htab
      have hlen : tbl.length ≠ 0 := by
        intro hc
        exact absurd (List.length_eq_zero.mp hc) (by simpa using htab)
      simp only [procUg, h, hlen, if_false, reduceIte]
      exact ⟨_, rfl⟩
    | val _ _ _ => simp at htab
    | pat _ _ _ => simp at htab
    | sine _ _ _ _ _ => simp at htab
    | tri _ _ _ _ _ => simp at htab
    | saw _ _ _ _ _ => simp at htab
    | pulse _ _ _ _ _ _ => simp at htab
    | rand _ _ _ _ _ _ => simp at htab
    | phase _ _ _ _ => simp at htab
    | wavetable _ _ _ _ => simp at htab
    | oneshot _ _ _ _ => simp at htab
    | lpf _ _ _ _ _ _ _ _ _ => simp at htab
    | delay _ _ _ _ _ _ _ => simp at htab
    | clip _ _ _ _ _ => simp at htab
    | gain _ _ _ _ => simp at htab
    | offset _ _ _ _ => simp at htab
  | oneshot lt ls osc eg ih1 ih2 =>
    intro t hwf
    simp only [wfB, Bool.and_eq_true] at hwf
    obtain ⟨⟨s, eg'⟩, h⟩ := proc_ok_of_procUg_ok eg t (ih2 t hwf.2)
    simp only [procUg, h]
    exact ⟨_, rfl⟩
  | lpf lt ls fr q src i0 i1 o0 o1 ih1 ih2 ih3 =>
    intro t hwf
    simp only [wfB, Bool.and_eq_true] at hwf
    obtain ⟨⟨f, fr'⟩, h1⟩ := proc_ok_of_procUg_ok fr t (ih1 t hwf.1.1)
    obtain ⟨⟨qs, q'⟩, h2⟩ := proc_ok_of_procUg_ok q t (ih2 t hwf.1.2)
    obtain ⟨⟨s, src'⟩, h3⟩ := proc_ok_of_procUg_ok src t (ih3 t hwf.2)
    simp only [procUg, h1, h2, h3]
    exact ⟨_, rfl⟩
  | delay lt ls tm fb mx src buf ih1 ih2 ih3 ih4 =>
    intro t hwf
    simp only [wfB, Bool.and_eq_true] at hwf
    obtain ⟨⟨tms, tm'⟩, h1⟩ := proc_ok_of_procUg_ok tm t (ih1 t hwf.1.1.1)
    obtain ⟨⟨fbs, fb'⟩, h2⟩ := proc_ok_of_procUg_ok fb t (ih2 t hwf.1.1.2)
    obtain ⟨⟨mxs, mx'⟩, h3⟩ := proc_ok_of_procUg_ok mx t (ih3 t hwf.1.2)
    obtain ⟨⟨s, src'⟩, h4⟩ := proc_ok_of_procUg_ok src t (ih4 t hwf.2)
    simp only [procUg, h1, h2, h3, h4]
    exact ⟨_, rfl⟩
  | clip lt ls a b src ih1 ih2 ih3 =>
    intro t hwf
    simp only [wfB, Bool.and_eq_true] at hwf
    obtain ⟨⟨as_, a'⟩, h1⟩ := proc_ok_of_procUg_ok a t (ih1 t hwf.1.1)
    obtain ⟨⟨bs, b'⟩, h2⟩ := proc_ok_of_procUg_ok b t (ih2 t hwf.1.2)
    obtain ⟨⟨s, src'⟩, h3⟩ := proc_ok_of_procUg_ok src t (ih3 t hwf.2)
    simp only [procUg, h1, h2, h3]
    exact ⟨_, rfl⟩
  | gain lt ls a src ih1 ih2 =>
    intro t hwf
    simp only [wfB, Bool.and_eq_true] at hwf
    obtain ⟨⟨as_, a'⟩, h1⟩ := proc_ok_of_procUg_ok a t (ih1 t hwf.1)
    obtain ⟨⟨s, src'⟩, h2⟩ := proc_ok_of_procUg_ok src t (ih2 t hwf.2)
    simp only [procUg, h1, h2]
    exact ⟨_, rfl⟩
  | offset lt ls a src ih1 ih2 =>
    intro t hwf
    simp only [wfB, Bool.and_eq_true] at hwf
    obtain ⟨⟨as_, a'⟩, h1⟩ := proc_ok_of_procUg_ok a t (ih1 t hwf.1)
    obtain ⟨⟨s, src'⟩, h2⟩ := proc_ok_of_procUg_ok src t (ih2 t hwf.2)
    simp only [procUg, h1, h2]
    exact ⟨_, rfl⟩

end AugT

/-- A concrete transport (sample rate 44100 Hz, 120 bpm, 4/4) at a given tick,
used by witnesses and counterexamples. -/
def tpAt (tick : ℕ) : Transport := ⟨44100, tick, 120, ⟨4, 4⟩, ⟨0, 0, 0⟩⟩

/-- **C1** (memoized evaluation, `UGen::proc`, src/ugens/core.rs 381-392):
for a node whose cached `last_tick` differs from the transport tick `T`, the
call to `proc` evaluates the variant body exactly once and stores
`last_tick = T`, `last_sig = result`; after any successful call the node is
cached for `T`, and every node cached for `T` returns `last_sig` with its
state unchanged — the variant body is not re-entered (the result does not
depend on the payload at all). -/
theorem c1_ugen_proc_memoizes (g : AugT) (t : Transport)
    (h : g.lastTick ≠ t.tick) :
    (AugT.proc g t =
      match AugT.procUg g t with
      | .error e => .error e
      | .ok (sig, g') => .ok (sig, g'.withMemo t.tick sig)) ∧
    (∀ sig g', AugT.proc g t = .ok (sig, g') →
      g'.lastTick = t.tick ∧ g'.lastSig = sig ∧
      AugT.proc g' t = .ok (sig, g')) ∧
    (∀ u : AugT, u.lastTick = t.tick → AugT.proc u t = .ok (u.lastSig, u)) := by
  refine ⟨?_, ?_, ?_⟩
  · rw [AugT.proc, if_neg h]
  · intro sig g' hp
    rw [AugT.proc, if_neg h] at hp
    rcases hUg : AugT.procUg g t with e | ⟨sig0, g0⟩ <;> rw [hUg] at hp
    · exact absurd hp (by simp)
    · have hsig : sig0 = sig := by
        have := hp
        simp only [Except.ok.injEq, Prod.mk.injEq] at this
        exact this.1
      have hg' : g' = g0.withMemo t.tick sig0 := by
        have := hp
        simp only [Except.ok.injEq, Prod.mk.injEq] at this
        exact this.2.symm
      subst hsig
      subst hg'
      refine ⟨AugT.lastTick_withMemo _ _ _, AugT.lastSig_withMemo _ _ _, ?_⟩
      rw [AugT.proc, if_pos (AugT.lastTick_withMemo _ _ _),
        AugT.lastSig_withMemo]
  · intro u hu
    rw [AugT.proc, if_pos hu]

/-- Witness for C1 at a concrete node and tick. -/
theorem c1_ugen_proc_memoizes_witness :
    (augVal 2).lastTick ≠ (tpAt 1).tick ∧
    ((AugT.proc (augVal 2) (tpAt 1) =
      match AugT.procUg (augVal 2) (tpAt 1) with
      | .error e => .error e
      | .ok (sig, g') => .ok (sig, g'.withMemo (tpAt 1).tick sig)) ∧
    (∀ sig g', AugT.proc (augVal 2) (tpAt 1) = .ok (sig, g') →
      g'.lastTick = (tpAt 1).tick ∧ g'.lastSig = sig ∧
      AugT.proc g' (tpAt 1) = .ok (sig, g')) ∧
    (∀ u : AugT, u.lastTick = (tpAt 1).tick →
      AugT.proc u (tpAt 1) = .ok (u.lastSig, u))) :=
  ⟨by decide, c1_ugen_proc_memoizes (augVal 2) (tpAt 1) (by decide)⟩

/-- **C2** (code_bug evidence): a freshly constructed `UGen` wrapping
`UG::Val(1.0)` (`UGen::new` sets `last_tick = 0`, `last_sig = (0.0, 0.0)`,
src/ugens/core.rs 311-320), called with `transport.tick == 0`, returns the
cached default `(0.0, 0.0)` without evaluating the variant, whose computed
signal would be `(1.0, 1.0)`. -/
theorem c2_fresh_ugen_skips_first_tick :
    AugT.proc (AugT.val 0 (0, 0) 1) (tpAt 0) =
      .ok ((0, 0), AugT.val 0 (0, 0) 1) ∧
    ((0 : ℝ), (0 : ℝ)) ≠ ((1 : ℝ), (1 : ℝ)) := by
  constructor
  · rw [AugT.proc, if_pos (by decide)]
    rfl
  · simp [Prod.ext_iff]

/-- **C4** (counterexample): a `WaveTable` whose `table` parameter holds a
`Val` node panics in `proc` (the explicit `panic!` at src/ugens/osc.rs 1365),
so the audio path is not infallible for every graph. -/
theorem c4_wavetable_nontab_panics :
    AugT.proc (.wavetable 0 (0, 0) (augVal 0) (augVal 0)) (tpAt 1) =
      .error .notATable := by
  rw [AugT.proc, if_neg (by decide)]
  simp [AugT.procUg, augVal]

/-- **C4** (amended): `proc` is infallible on every graph in which each
`wavetable` node's `table` parameter holds a nonempty `Tab` node: it always
returns a signal, for every transport. -/
theorem c4_proc_total_on_wf_graphs (g : AugT) (t : Transport)
    (h : AugT.wfB g = true) : ∃ r, AugT.proc g t = .ok r :=
  AugT.proc_ok_of_procUg_ok g t (AugT.procUg_total_of_wf g t h)

/-- Witness for the amended C4 on a concrete well-formed graph. -/
theorem c4_proc_total_on_wf_graphs_witness :
    AugT.wfB (.wavetable 0 (0, 0) (.tab 0 (0, 0) [1, 2]) (augVal 0)) = true ∧
    ∃ r, AugT.proc (.wavetable 0 (0, 0) (.tab 0 (0, 0) [1, 2]) (augVal 0))
      (tpAt 1) = .ok r :=
  ⟨by rfl,
   c4_proc_total_on_wf_graphs _ (tpAt 1) (by rfl)⟩

/-- The phase accumulator of the node state produced by a variant body
(`Osc::get_ph` after `UG::proc`), used to exhibit phase-update behavior. -/
def procUgPh (g : AugT) (t : Transport) : ℝ :=
  match AugT.procUg g t with
  | .ok (_, g') => g'.getPh
  | .error _ => 0

/-- **C3** (counterexample): for `(sine 0 1)` at sample rate 1 the code
advances the accumulator from 0 to `π` (`ph += freq / (sample_rate / π)`,
src/ugens/osc.rs 469-470), not to `1 / (1 · π)` as the claimed divisor
`sample_rate · π` would give. -/
theorem c3_sine_divisor_cex :
    procUgPh (.sine 0 (0, 0) (augVal 0) (augVal 1) 0)
      ⟨1, 1, 120, ⟨4, 4⟩, ⟨0, 0, 0⟩⟩ = Real.pi ∧
    Real.pi ≠ 1 / ((1 : ℝ) * Real.pi) := by
  constructor
  · have hp1 : AugT.proc (augVal 0) ⟨1, 1, 120, ⟨4, 4⟩, ⟨0, 0, 0⟩⟩ =
        .ok ((0, 0), .val 1 (0, 0) 0) := by
      rw [AugT.proc, if_neg (by decide)]
      simp [AugT.procUg, augVal, AugT.withMemo]
    have hp2 : AugT.proc (augVal 1) ⟨1, 1, 120, ⟨4, 4⟩, ⟨0, 0, 0⟩⟩ =
        .ok ((1, 1), .val 1 (1, 1) 1) := by
      rw [AugT.proc, if_neg (by decide)]
      simp [AugT.procUg, augVal, AugT.withMemo]
    simp only [procUgPh, AugT.procUg, hp1, hp2, AugT.getPh]
    rw [zero_add]
    rw [Nat.cast_one, one_div_one_div]
  · have hpi : (3 : ℝ) < Real.pi := Real.pi_gt_three
    intro hc
    rw [one_mul] at hc
    have h2 : Real.pi * Real.pi = 1 := by
      field_simp at hc
      nlinarith [hc]
    nlinarith [h2, hpi]

/-- **C3** (amended): each call to `Sine::proc` returns `(v, v)` with
`v = sin(i + ph)`, `i` the left channel of `init_ph`'s output and `ph` the
accumulator before the call, and afterwards increments the accumulator by
`f · π / sample_rate` (the code divides by `sample_rate / π`, which equals
multiplying by `π / sample_rate`), where `f` is the left channel of `freq`'s
output. -/
theorem c3_sine_proc_formula (lt : ℕ) (ls : ℝ × ℝ) (p1 p2 p1' p2' : AugT)
    (s1 s2 : ℝ × ℝ) (ph : ℝ) (t : Transport)
    (h1 : AugT.proc p1 t = .ok (s1, p1'))
    (h2 : AugT.proc p2 t = .ok (s2, p2')) :
    AugT.procUg (.sine lt ls p1 p2 ph) t =
      .ok ((Real.sin (s1.1 + ph), Real.sin (s1.1 + ph)),
           .sine lt ls p1' p2' (ph + s2.1 * Real.pi / (t.sampleRate : ℝ))) := by
  simp only [AugT.procUg, h1, h2]
  rw [div_div_eq_mul_div]

/-- Witness for the amended C3 at a concrete sine node. -/
theorem c3_sine_proc_formula_witness :
    AugT.proc (augVal 0) (tpAt 1) = .ok (((0 : ℝ), (0 : ℝ)), .val 1 (0, 0) 0) ∧
    AugT.proc (augVal 440) (tpAt 1) =
      .ok (((440 : ℝ), (440 : ℝ)), .val 1 (440, 440) 440) ∧
    AugT.procUg (.sine 0 (0, 0) (augVal 0) (augVal 440) 0) (tpAt 1) =
      .ok ((Real.sin (((0 : ℝ), (0 : ℝ)).1 + 0),
            Real.sin (((0 : ℝ), (0 : ℝ)).1 + 0)),
           .sine 0 (0, 0) (.val 1 (0, 0) 0) (.val 1 (440, 440) 440)
             (0 + ((440 : ℝ), (440 : ℝ)).1 * Real.pi /
               ((tpAt 1).sampleRate : ℝ))) := by
  have hp1 : AugT.proc (augVal 0) (tpAt 1) =
      .ok (((0 : ℝ), (0 : ℝ)), .val 1 (0, 0) 0) := by
    rw [AugT.proc, if_neg (by decide)]
    simp [AugT.procUg, augVal, AugT.withMemo, tpAt]
  have hp2 : AugT.proc (augVal 440) (tpAt 1) =
      .ok (((440 : ℝ), (440 : ℝ)), .val 1 (440, 440) 440) := by
    rw [AugT.proc, if_neg (by decide)]
    simp [AugT.procUg, augVal, AugT.withMemo, tpAt]
  exact ⟨hp1, hp2,
    c3_sine_proc_formula 0 (0, 0) (augVal 0) (augVal 440) (.val 1 (0, 0) 0)
      (.val 1 (440, 440) 440) ((0 : ℝ), (0 : ℝ)) ((440 : ℝ), (440 : ℝ)) 0
      (tpAt 1) hp1 hp2⟩

theorem delayLoop_eq_sum_aux (buffer : List (ℝ × ℝ)) (dt : ℕ) (fb : ℝ)
    (hdt : dt ≠ 0) :
    ∀ M k, buffer.length - k * dt ≤ M →
      delayLoop buffer dt fb k =
        (∑ n in Finset.Icc k ((buffer.length - 1) / dt),
          (buffer.getD (n * dt) (0, 0)).1 * fb ^ n,
         ∑ n in Finset.Icc k ((buffer.length - 1) / dt),
          (buffer.getD (n * dt) (0, 0)).2 * fb ^ n) := by
  have hdt0 : 0 < dt := Nat.pos_of_ne_zero hdt
  intro M
  induction M with
  | zero =>
    intro k hk
    have hstop : ¬(dt ≠ 0 ∧ k * dt < buffer.length) := by
      rintro ⟨-, hlt⟩
      omega
    rw [delayLoop, dif_neg hstop]
    have hzero : ∀ m ∈ Finset.Icc k ((buffer.length - 1) / dt),
        buffer.getD (m * dt) ((0 : ℝ), (0 : ℝ)) = (0, 0) := by
      intro m hm
      simp only [Finset.mem_Icc] at hm
      have hmon : k * dt ≤ m * dt := Nat.mul_le_mul_right dt hm.1
      exact List.getD_eq_default _ _ (by omega)
    refine Prod.ext ?_ ?_ <;> simp only <;> rw [Finset.sum_eq_zero] <;>
      first
        | rfl
        | (intro m hm; rw [hzero m hm]; simp)
  | succ M ih =>
    intro k hk
    rw [delayLoop]
    split
    case isTrue h =>
      obtain ⟨-, h2⟩ := h
      have hmul : (k + 1) * dt = k * dt + dt := Nat.succ_mul k dt
      have hlen : 1 ≤ buffer.length := by omega
      have hkN : k ≤ (buffer.length - 1) / dt :=
        (Nat.le_div_iff_mul_le hdt0).mpr (by omega)
      have hsplit : Finset.Icc k ((buffer.length - 1) / dt) =
          insert k (Finset.Icc (k + 1) ((buffer.length - 1) / dt)) := by
        ext m
        simp only [Finset.mem_Icc, Finset.mem_insert]
        omega
      rw [hsplit, Finset.sum_insert (by simp), Finset.sum_insert (by simp),
        ih (k + 1) (by omega)]
    case isFalse h =>
      push_neg at h
      have h2 := h hdt
      have hzero : ∀ m ∈ Finset.Icc k ((buffer.length - 1) / dt),
          buffer.getD (m * dt) ((0 : ℝ), (0 : ℝ)) = (0, 0) := by
        intro m hm
        simp only [Finset.mem_Icc] at hm
        have hmon : k * dt ≤ m * dt := Nat.mul_le_mul_right dt hm.1
        exact List.getD_eq_default _ _ (by omega)
      refine Prod.ext ?_ ?_ <;> simp only <;> rw [Finset.sum_eq_zero] <;>
        first
          | rfl
          | (intro m hm; rw [hzero m hm]; simp)

theorem delayLoop_eq_sum (buffer : List (ℝ × ℝ)) (dt : ℕ) (fb : ℝ)
    (hdt : dt ≠ 0) (k : ℕ) :
    delayLoop buffer dt fb k =
      (∑ n in Finset.Icc k ((buffer.length - 1) / dt),
        (buffer.getD (n * dt) (0, 0)).1 * fb ^ n,
       ∑ n in Finset.Icc k ((buffer.length - 1) / dt),
        (buffer.getD (n * dt) (0, 0)).2 * fb ^ n) :=
  delayLoop_eq_sum_aux buffer dt fb hdt buffer.length k (Nat.sub_le _ _)

theorem delayLoop_zero (buffer : List (ℝ × ℝ)) (fb : ℝ) (n : ℕ) :
    delayLoop buffer 0 fb n = (0, 0) := by
  rw [delayLoop, dif_neg]
  simp

theorem delayLoop_fst (buffer : List (ℝ × ℝ)) (dt : ℕ) (fb : ℝ)
    (hdt : dt ≠ 0) (k : ℕ) :
    (delayLoop buffer dt fb k).1 =
      ∑ n in Finset.Icc k ((buffer.length - 1) / dt),
        (buffer.getD (n * dt) (0, 0)).1 * fb ^ n := by
  rw [delayLoop_eq_sum buffer dt fb hdt k]

theorem delayLoop_snd (buffer : List (ℝ × ℝ)) (dt : ℕ) (fb : ℝ)
    (hdt : dt ≠ 0) (k : ℕ) :
    (delayLoop buffer dt fb k).2 =
      ∑ n in Finset.Icc k ((buffer.length - 1) / dt),
        (buffer.getD (n * dt) (0, 0)).2 * fb ^ n := by
  rw [delayLoop_eq_sum buffer dt fb hdt k]

/-- **C6** (`Delay::proc`, src/ugens/fx.rs 421-443): each call pops the back
of the ring buffer and pushes the current `src` sample at the front, keeping
the length constant; with `dt = floor(sample_rate · time)` (the `as u64` cast
agrees with `floor` for nonnegative time), the output per channel is
`src + mix · Σ_{n=1..N} buffer[n·dt] · feedback^n` where `N` is the largest
integer with `n·dt < buffer.len()`; if `dt = 0` the sum is empty and the
output equals the src sample. -/
theorem c6_delay_proc (lt : ℕ) (ls stm sfb smx s : ℝ × ℝ)
    (tm fb mx src tm' fb' mx' src' : AugT)
    (buf : List (ℝ × ℝ)) (t : Transport)
    (dt N : ℕ) (buf2 : List (ℝ × ℝ))
    (hbuf : buf ≠ [])
    (hsrc : AugT.proc src t = .ok (s, src'))
    (htm : AugT.proc tm t = .ok (stm, tm'))
    (hfb : AugT.proc fb t = .ok (sfb, fb'))
    (hmx : AugT.proc mx t = .ok (smx, mx'))
    (htime : 0 ≤ stm.1)
    (hdt : dt = f64toU64 ((t.sampleRate : ℝ) * stm.1))
    (hbuf2 : buf2 = s :: buf.dropLast)
    (hN : N = (buf2.length - 1) / dt) :
    buf2.length = buf.length ∧
    (dt : ℤ) = ⌊(t.sampleRate : ℝ) * stm.1⌋ ∧
    (dt ≠ 0 → ∀ n : ℕ, (n * dt < buf2.length ↔ n ≤ N)) ∧
    AugT.procUg (.delay lt ls tm fb mx src buf) t =
      .ok ((s.1 + smx.1 * ∑ n in Finset.Icc 1 N,
              (buf2.getD (n * dt) (0, 0)).1 * sfb.1 ^ n,
            s.2 + smx.1 * ∑ n in Finset.Icc 1 N,
              (buf2.getD (n * dt) (0, 0)).2 * sfb.1 ^ n),
           .delay lt ls tm' fb' mx' src' buf2) ∧
    (dt = 0 → AugT.procUg (.delay lt ls tm fb mx src buf) t =
      .ok ((s.1, s.2), .delay lt ls tm' fb' mx' src' buf2)) := by
  have hlen : 0 < buf.length := List.length_pos.mpr hbuf
  subst hdt
  subst hbuf2
  subst hN
  refine ⟨?_, ?_, ?_, ?_, ?_⟩
  · simp only [List.length_cons, List.length_dropLast]
    omega
  · have hx0 : (0 : ℝ) ≤ (t.sampleRate : ℝ) * stm.1 :=
      mul_nonneg (Nat.cast_nonneg _) htime
    rw [f64toU64, rtrunc, if_pos hx0,
      Int.toNat_of_nonneg (Int.floor_nonneg.mpr hx0)]
  · intro hdt0 n
    have hcons : (s :: buf.dropLast).length = buf.dropLast.length + 1 := rfl
    rw [Nat.le_div_iff_mul_le (Nat.pos_of_ne_zero hdt0)]
    omega
  · simp only [AugT.procUg, hsrc, htm, hfb, hmx]
    by_cases h0 : f64toU64 ((t.sampleRate : ℝ) * stm.1) = 0
    · rw [h0, delayLoop_zero, Nat.div_zero, Finset.Icc_eq_empty (by omega)]
      simp
    · rw [delayLoop_fst _ _ _ h0 1, delayLoop_snd _ _ _ h0 1]
      have hmk : ∀ x1 x2 y1 y2 : ℝ, x1 = y1 → x2 = y2 →
          (Except.ok ((x1, x2), AugT.delay lt ls tm' fb' mx' src'
            (s :: buf.dropLast)) : Except RunStop ((ℝ × ℝ) × AugT)) =
          .ok ((y1, y2), AugT.delay lt ls tm' fb' mx' src'
            (s :: buf.dropLast)) := by
        intro x1 x2 y1 y2 e1 e2
        rw [e1, e2]
      exact hmk _ _ _ _ (by ring) (by ring)
  · intro h0
    simp only [AugT.procUg, hsrc, htm, hfb, hmx]
    rw [h0, delayLoop_zero]
    simp

/-- Witness for C6 at a concrete delay node (zero delay time). -/
theorem c6_delay_proc_witness :
    ([((0:ℝ),(0:ℝ)), ((0:ℝ),(0:ℝ))] : List (ℝ × ℝ)) ≠ [] ∧
    AugT.proc (augVal 1) (tpAt 1) = .ok (((1:ℝ),(1:ℝ)), .val 1 (1, 1) 1) ∧
    AugT.proc (augVal 0) (tpAt 1) = .ok (((0:ℝ),(0:ℝ)), .val 1 (0, 0) 0) ∧
    (0 : ℝ) ≤ (((0:ℝ),(0:ℝ)) : ℝ × ℝ).1 ∧
    (([((1:ℝ),(1:ℝ)), ((0:ℝ),(0:ℝ))] : List (ℝ × ℝ)).length =
      ([((0:ℝ),(0:ℝ)), ((0:ℝ),(0:ℝ))] : List (ℝ × ℝ)).length) ∧
    (((0 : ℕ) : ℤ) = ⌊((tpAt 1).sampleRate : ℝ) * (((0:ℝ),(0:ℝ)) : ℝ × ℝ).1⌋) ∧
    ((0 : ℕ) ≠ 0 → ∀ n : ℕ,
      (n * 0 < ([((1:ℝ),(1:ℝ)), ((0:ℝ),(0:ℝ))] : List (ℝ × ℝ)).length ↔
        n ≤ 0)) ∧
    (AugT.procUg (.delay 0 (0, 0) (augVal 0) (augVal 0) (augVal 0) (augVal 1)
        [((0:ℝ),(0:ℝ)), ((0:ℝ),(0:ℝ))]) (tpAt 1) =
      .ok (((((1:ℝ),(1:ℝ)) : ℝ × ℝ).1 + (((0:ℝ),(0:ℝ)) : ℝ × ℝ).1 *
              ∑ n in Finset.Icc 1 0,
                (([((1:ℝ),(1:ℝ)), ((0:ℝ),(0:ℝ))] : List (ℝ × ℝ)).getD (n * 0)
                  (0, 0)).1 * (((0:ℝ),(0:ℝ)) : ℝ × ℝ).1 ^ n,
            (((1:ℝ),(1:ℝ)) : ℝ × ℝ).2 + (((0:ℝ),(0:ℝ)) : ℝ × ℝ).1 *
              ∑ n in Finset.Icc 1 0,
                (([((1:ℝ),(1:ℝ)), ((0:ℝ),(0:ℝ))] : List (ℝ × ℝ)).getD (n * 0)
                  (0, 0)).2 * (((0:ℝ),(0:ℝ)) : ℝ × ℝ).1 ^ n),
           .delay 0 (0, 0) (.val 1 (0, 0) 0) (.val 1 (0, 0) 0)
             (.val 1 (0, 0) 0) (.val 1 (1, 1) 1)
             [((1:ℝ),(1:ℝ)), ((0:ℝ),(0:ℝ))])) ∧
    ((0 : ℕ) = 0 →
      AugT.procUg (.delay 0 (0, 0) (augVal 0) (augVal 0) (augVal 0) (augVal 1)
        [((0:ℝ),(0:ℝ)), ((0:ℝ),(0:ℝ))]) (tpAt 1) =
      .ok (((((1:ℝ),(1:ℝ)) : ℝ × ℝ).1, (((1:ℝ),(1:ℝ)) : ℝ × ℝ).2),
           .delay 0 (0, 0) (.val 1 (0, 0) 0) (.val 1 (0, 0) 0)
             (.val 1 (0, 0) 0) (.val 1 (1, 1) 1)
             [((1:ℝ),(1:ℝ)), ((0:ℝ),(0:ℝ))])) := by
  have hval0 : AugT.proc (augVal 0) (tpAt 1) =
      .ok (((0:ℝ),(0:ℝ)), .val 1 (0, 0) 0) := by
    rw [AugT.proc, if_neg (by decide)]
    simp [AugT.procUg, augVal, AugT.withMemo, tpAt]
  have hval1 : AugT.proc (augVal 1) (tpAt 1) =
      .ok (((1:ℝ),(1:ℝ)), .val 1 (1, 1) 1) := by
    rw [AugT.proc, if_neg (by decide)]
    simp [AugT.procUg, augVal, AugT.withMemo, tpAt]
  have hmain := c6_delay_proc 0 (0, 0) ((0:ℝ),(0:ℝ)) ((0:ℝ),(0:ℝ))
    ((0:ℝ),(0:ℝ)) ((1:ℝ),(1:ℝ)) (augVal 0) (augVal 0) (augVal 0) (augVal 1)
    (.val 1 (0, 0) 0) (.val 1 (0, 0) 0) (.val 1 (0, 0) 0) (.val 1 (1, 1) 1)
    [((0:ℝ),(0:ℝ)), ((0:ℝ),(0:ℝ))] (tpAt 1) 0 0
    [((1:ℝ),(1:ℝ)), ((0:ℝ),(0:ℝ))] (by simp) hval1 hval0 hval0 hval0
    (by norm_num) (by simp [f64toU64, rtrunc, tpAt]) (by rfl) (by rfl)
  exact ⟨by simp, hval1, hval0, by norm_num, hmain.1, hmain.2.1, hmain.2.2.1,
    hmain.2.2.2.1, hmain.2.2.2.2⟩

theorem rtrunc_of_nonneg (x : ℝ) (h : 0 ≤ x) : rtrunc x = ⌊x⌋ := if_pos h

theorem rtrunc_intCast (n : ℤ) : rtrunc (n : ℝ) = n := by
  rw [rtrunc]
  split
  · exact Int.floor_intCast n
  · exact Int.ceil_intCast n

theorem fmod_of_nonneg_lt (a L : ℝ) (h0 : 0 ≤ a) (hL : a < L) :
    fmod a L = a := by
  have hLpos : 0 < L := lt_of_le_of_lt h0 hL
  have hdiv : rtrunc (a / L) = 0 := by
    rw [rtrunc_of_nonneg _ (div_nonneg h0 hLpos.le)]
    rw [Int.floor_eq_zero_iff]
    exact Set.mem_Ico.mpr ⟨div_nonneg h0 hLpos.le, (div_lt_one hLpos).mpr hL⟩
  rw [fmod, hdiv]
  push_cast
  ring

theorem fmod_self (L : ℝ) (h : L ≠ 0) : fmod L L = 0 := by
  rw [fmod, div_self h, rtrunc_of_nonneg _ zero_le_one, Int.floor_one]
  push_cast
  ring

/-- **C7** (`WaveTable::proc`, src/ugens/osc.rs 1354-1368 and
`linear_interpol`, 1223-1226): for a table of length `L > 0` and a phase
input `x ∈ [0,1)`, `proc` returns on both channels
`v1 · r + v2 · (1 − r)` with `p = x · L`, `r = p.fract()`,
`v1 = table[⌊p⌋ mod L]` and `v2 = table[⌈p⌉ mod L]`; the earlier sample `v1`
is weighted by `r`. -/
theorem c7_wavetable_interpolation (lt tlt : ℕ) (ls tls x : ℝ × ℝ)
    (tbl : List ℝ) (ph ph' : AugT) (t : Transport)
    (htbl : tbl ≠ [])
    (hph : AugT.proc ph t = .ok (x, ph'))
    (hx0 : 0 ≤ x.1) (hx1 : x.1 < 1)
    (p : ℝ) (hp : p = x.1 * (tbl.length : ℝ))
    (r : ℝ) (hr : r = Int.fract p) :
    AugT.procUg (.wavetable lt ls (.tab tlt tls tbl) ph) t =
      .ok ((tbl.getD (⌊p⌋.toNat % tbl.length) 0 * r +
              tbl.getD (⌈p⌉.toNat % tbl.length) 0 * (1 - r),
            tbl.getD (⌊p⌋.toNat % tbl.length) 0 * r +
              tbl.getD (⌈p⌉.toNat % tbl.length) 0 * (1 - r)),
           .wavetable lt ls (.tab tlt tls tbl) ph') := by
  subst hp
  subst hr
  have hL : 0 < tbl.length := List.length_pos.mpr htbl
  have hLR : (0 : ℝ) < (tbl.length : ℝ) := by exact_mod_cast hL
  have hp0 : 0 ≤ x.1 * (tbl.length : ℝ) := mul_nonneg hx0 hLR.le
  have hpL : x.1 * (tbl.length : ℝ) < (tbl.length : ℝ) := by
    calc x.1 * (tbl.length : ℝ) < 1 * (tbl.length : ℝ) :=
          mul_lt_mul_of_pos_right hx1 hLR
      _ = (tbl.length : ℝ) := one_mul _
  have hfl0 : 0 ≤ ⌊x.1 * (tbl.length : ℝ)⌋ := Int.floor_nonneg.mpr hp0
  have hflL : ⌊x.1 * (tbl.length : ℝ)⌋ < (tbl.length : ℤ) :=
    Int.floor_lt.mpr (by push_cast; exact hpL)
  have hcl0 : 0 ≤ ⌈x.1 * (tbl.length : ℝ)⌉ := Int.ceil_nonneg hp0
  have hclL : ⌈x.1 * (tbl.length : ℝ)⌉ ≤ (tbl.length : ℤ) :=
    Int.ceil_le.mpr (by push_cast; exact hpL.le)
  have e1 : f64toU64 (fmod ((⌊x.1 * (tbl.length : ℝ)⌋ : ℤ) : ℝ)
      (tbl.length : ℝ)) = ⌊x.1 * (tbl.length : ℝ)⌋.toNat % tbl.length := by
    rw [fmod_of_nonneg_lt _ _ (by exact_mod_cast hfl0)
      (by exact_mod_cast hflL)]
    rw [f64toU64, rtrunc_intCast]
    have hlt : ⌊x.1 * (tbl.length : ℝ)⌋.toNat < tbl.length := by omega
    rw [Nat.mod_eq_of_lt hlt]
  have e2 : f64toU64 (fmod ((⌈x.1 * (tbl.length : ℝ)⌉ : ℤ) : ℝ)
      (tbl.length : ℝ)) = ⌈x.1 * (tbl.length : ℝ)⌉.toNat % tbl.length := by
    rcases eq_or_lt_of_le hclL with heq | hlt
    · rw [heq]
      push_cast
      rw [fmod_self _ (ne_of_gt hLR)]
      rw [f64toU64, rtrunc_of_nonneg _ le_rfl, Int.floor_zero, Int.toNat_zero]
      simp
    · rw [fmod_of_nonneg_lt _ _ (by exact_mod_cast hcl0)
        (by exact_mod_cast hlt)]
      rw [f64toU64, rtrunc_intCast]
      have hlt2 : ⌈x.1 * (tbl.length : ℝ)⌉.toNat < tbl.length := by omega
      rw [Nat.mod_eq_of_lt hlt2]
  have e3 : ∀ v1 v2 : ℝ, linearInterpol v1 v2 (fract (x.1 * (tbl.length : ℝ)))
      = v1 * Int.fract (x.1 * (tbl.length : ℝ)) +
        v2 * (1 - Int.fract (x.1 * (tbl.length : ℝ))) := by
    intro v1 v2
    have hfr : fract (x.1 * (tbl.length : ℝ)) =
        Int.fract (x.1 * (tbl.length : ℝ)) := by
      rw [fract, rtrunc_of_nonneg _ hp0, Int.fract]
    rw [linearInterpol, hfr,
      fmod_of_nonneg_lt _ _ (Int.fract_nonneg _) (Int.fract_lt_one _)]
  simp only [AugT.procUg, hph, if_neg hL.ne', e1, e2, e3]

/-- Witness for C7 at a concrete wavetable (table `[2, 4]`, phase `1/4`). -/
theorem c7_wavetable_interpolation_witness :
    ([(2:ℝ), 4] : List ℝ) ≠ [] ∧
    AugT.proc (augVal (1/4)) (tpAt 1) =
      .ok (((1/4 : ℝ), (1/4 : ℝ)), .val 1 (1/4, 1/4) (1/4)) ∧
    (0 : ℝ) ≤ (((1/4 : ℝ), (1/4 : ℝ)) : ℝ × ℝ).1 ∧
    (((1/4 : ℝ), (1/4 : ℝ)) : ℝ × ℝ).1 < 1 ∧
    AugT.procUg (.wavetable 0 (0, 0) (.tab 0 (0, 0) [(2:ℝ), 4])
        (augVal (1/4))) (tpAt 1) =
      .ok ((([(2:ℝ), 4] : List ℝ).getD
              (⌊(((1/4 : ℝ), (1/4 : ℝ)) : ℝ × ℝ).1 *
                (([(2:ℝ), 4] : List ℝ).length : ℝ)⌋.toNat %
                ([(2:ℝ), 4] : List ℝ).length) 0 *
              Int.fract ((((1/4 : ℝ), (1/4 : ℝ)) : ℝ × ℝ).1 *
                (([(2:ℝ), 4] : List ℝ).length : ℝ)) +
            ([(2:ℝ), 4] : List ℝ).getD
              (⌈(((1/4 : ℝ), (1/4 : ℝ)) : ℝ × ℝ).1 *
                (([(2:ℝ), 4] : List ℝ).length : ℝ)⌉.toNat %
                ([(2:ℝ), 4] : List ℝ).length) 0 *
              (1 - Int.fract ((((1/4 : ℝ), (1/4 : ℝ)) : ℝ × ℝ).1 *
                (([(2:ℝ), 4] : List ℝ).length : ℝ))),
            ([(2:ℝ), 4] : List ℝ).getD
              (⌊(((1/4 : ℝ), (1/4 : ℝ)) : ℝ × ℝ).1 *
                (([(2:ℝ), 4] : List ℝ).length : ℝ)⌋.toNat %
                ([(2:ℝ), 4] : List ℝ).length) 0 *
              Int.fract ((((1/4 : ℝ), (1/4 : ℝ)) : ℝ × ℝ).1 *
                (([(2:ℝ), 4] : List ℝ).length : ℝ)) +
            ([(2:ℝ), 4] : List ℝ).getD
              (⌈(((1/4 : ℝ), (1/4 : ℝ)) : ℝ × ℝ).1 *
                (([(2:ℝ), 4] : List ℝ).length : ℝ)⌉.toNat %
                ([(2:ℝ), 4] : List ℝ).length) 0 *
              (1 - Int.fract ((((1/4 : ℝ), (1/4 : ℝ)) : ℝ × ℝ).1 *
                (([(2:ℝ), 4] : List ℝ).length : ℝ)))),
           .wavetable 0 (0, 0) (.tab 0 (0, 0) [(2:ℝ), 4])
             (.val 1 (1/4, 1/4) (1/4))) := by
  have hph : AugT.proc (augVal (1/4)) (tpAt 1) =
      .ok (((1/4 : ℝ), (1/4 : ℝ)), .val 1 (1/4, 1/4) (1/4)) := by
    rw [AugT.proc, if_neg (by decide)]
    simp [AugT.procUg, augVal, AugT.withMemo, tpAt]
  exact ⟨by simp, hph, by norm_num, by norm_num,
    c7_wavetable_interpolation 0 0 (0, 0) (0, 0) ((1/4 : ℝ), (1/4 : ℝ))
      [(2:ℝ), 4] (augVal (1/4)) (.val 1 (1/4, 1/4) (1/4)) (tpAt 1)
      (by simp) hph (by norm_num) (by norm_num) _ rfl _ rfl⟩

theorem Transport.tick_inc (t : Transport) : t.inc.tick = t.tick + 1 := by
  rw [Transport.inc]
  split
  · dsimp only
    split <;> rfl
  · rfl

/-- The audio callback loop of `SoundSystem::run` (`src/soundsystem.rs`
lines 23-46), modelled sequentially over a buffer of `n` remaining sample
slots.  Per iteration the callback takes the coordination lock and the
transport lock, calls `root.proc(&transport)`, advances the transport by one
tick, and only then consults the buffer iterator, writing `l` and `r` (the
`f32` narrowing is modelled as the identity on `ℝ`) or breaking when the
iterator is exhausted.  `Transport.inc` is modelled from the spec (§4.1).
Returns the written samples, the final root and transport, and the number of
`proc` calls performed. -/
def ssRun : AugT → Transport → ℕ →
    Except RunStop (List ℝ × AugT × Transport × ℕ)
  | root, t, 0 =>
    match AugT.proc root t with
    | .error e => .error e
    | .ok (_, root') => .ok ([], root', t.inc, 1)
  | root, t, 1 =>
    match AugT.proc root t with
    | .error e => .error e
    | .ok (sig, root') => .ok ([sig.1], root', t.inc, 1)
  | root, t, (m + 2) =>
    match AugT.proc root t with
    | .error e => .error e
    | .ok (sig, root') =>
      match ssRun root' t.inc m with
      | .error e => .error e
      | .ok (buf, root'', t'', c) =>
        .ok (sig.1 :: sig.2 :: buf, root'', t'', c + 1)

theorem ssRun_err (root : AugT) (t : Transport) (n : ℕ) (e : RunStop)
    (hp : AugT.proc root t = .error e) : ssRun root t n = .error e := by
  match n with
  | 0 => rw [ssRun, hp]
  | 1 => rw [ssRun, hp]
  | (m + 2) => rw [ssRun, hp]

theorem ssRun_zero_eq (root : AugT) (t : Transport) (sig : ℝ × ℝ)
    (root1 : AugT) (hp : AugT.proc root t = .ok (sig, root1)) :
    ssRun root t 0 = .ok ([], root1, t.inc, 1) := by
  rw [ssRun, hp]

theorem ssRun_one_eq (root : AugT) (t : Transport) (sig : ℝ × ℝ)
    (root1 : AugT) (hp : AugT.proc root t = .ok (sig, root1)) :
    ssRun root t 1 = .ok ([sig.1], root1, t.inc, 1) := by
  rw [ssRun, hp]

theorem ssRun_two_eq (root : AugT) (t : Transport) (m : ℕ) (sig : ℝ × ℝ)
    (root1 : AugT) (hp : AugT.proc root t = .ok (sig, root1)) :
    ssRun root t (m + 2) =
      match ssRun root1 t.inc m with
      | .error e => .error e
      | .ok (buf, root'', t'', c) =>
        .ok (sig.1 :: sig.2 :: buf, root'', t'', c + 1) := by
  rw [ssRun, hp]

/-- **C5** (counterexample): filling a buffer of 2 samples (k = 1) from a
`Val` root performs 2 proc calls and 2 transport increments, not 1: the loop
body runs `proc` and `inc` once more after the buffer is exhausted, before
the iterator reports the end. -/
theorem c5_ssrun_extra_call_cex :
    ssRun (augVal 0) (tpAt 0) 2 =
      .ok ([0, 0], .val 1 (0, 0) 0, (tpAt 0).inc.inc, 2) ∧
    (tpAt 0).inc.inc.tick = 2 ∧ (2 : ℕ) ≠ 1 := by
  have hp0 : AugT.proc (augVal 0) (tpAt 0) =
      .ok (((0 : ℝ), (0 : ℝ)), augVal 0) := by
    rw [AugT.proc, if_pos (by decide)]
    rfl
  have htick : (tpAt 0).inc.tick = 1 := by
    rw [Transport.tick_inc]
    rfl
  have hp1 : AugT.proc (augVal 0) (tpAt 0).inc =
      .ok (((0 : ℝ), (0 : ℝ)), .val 1 (0, 0) 0) := by
    rw [AugT.proc, if_neg (by rw [htick]; simp [augVal, AugT.lastTick])]
    have hug : AugT.procUg (augVal 0) (tpAt 0).inc =
        .ok (((0 : ℝ), (0 : ℝ)), augVal 0) := by
      simp [AugT.procUg, augVal]
    rw [hug]
    simp [augVal, AugT.withMemo, htick]
  refine ⟨?_, ?_, by decide⟩
  · rw [show (2 : ℕ) = 0 + 2 from rfl,
      ssRun_two_eq _ _ _ _ _ hp0, ssRun_zero_eq _ _ _ _ hp1]
  · rw [Transport.tick_inc, Transport.tick_inc]
    rfl

/-- **C5** (amended): for each pair written, the callback locks, calls
`root.proc` once, advances the transport one tick, and writes `l`/`r`; the
loop performs one further proc call and increment after the buffer is
exhausted, so filling an even-length buffer of `2k` samples performs exactly
`k+1` proc calls and `k+1` transport increments, and writes the first proc
output as the first sample pair. -/
theorem c5_ssrun_counts (k : ℕ) :
    ∀ (root : AugT) (t : Transport) (buf : List ℝ) (root' : AugT)
      (t' : Transport) (c : ℕ),
      ssRun root t (2 * k) = .ok (buf, root', t', c) →
      c = k + 1 ∧ t'.tick = t.tick + (k + 1) ∧ buf.length = 2 * k ∧
      (∀ sig root1, AugT.proc root t = .ok (sig, root1) → 1 ≤ k →
        buf.take 2 = [sig.1, sig.2]) := by
  induction k with
  | zero =>
    intro root t buf root' t' c h
    rw [Nat.mul_zero] at h
    rcases hp : AugT.proc root t with e | ⟨sig, root1⟩
    · rw [ssRun_err _ _ _ _ hp] at h
      exact absurd h (by simp)
    · rw [ssRun_zero_eq _ _ _ _ hp] at h
      simp only [Except.ok.injEq, Prod.mk.injEq] at h
      obtain ⟨hbuf, hroot, ht, hc⟩ := h
      subst hbuf
      subst ht
      subst hc
      exact ⟨rfl, by rw [Transport.tick_inc], rfl,
        fun _ _ _ h1 => absurd h1 (by omega)⟩
  | succ k ih =>
    intro root t buf root' t' c h
    have h2 : 2 * (k + 1) = 2 * k + 2 := by ring
    rw [h2] at h
    rcases hp : AugT.proc root t with e | ⟨sig, root1⟩
    · rw [ssRun_err _ _ _ _ hp] at h
      exact absurd h (by simp)
    · rw [ssRun_two_eq _ _ _ _ _ hp] at h
      rcases hrec : ssRun root1 t.inc (2 * k) with e |
          ⟨buf0, root2, t2, c0⟩ <;> rw [hrec] at h
      · simp at h
      · simp only [Except.ok.injEq, Prod.mk.injEq] at h
        obtain ⟨hbuf, hroot, ht, hc⟩ := h
        obtain ⟨hc0, ht2, hlen0, -⟩ :=
          ih root1 t.inc buf0 root2 t2 c0 hrec
        subst hbuf
        subst ht
        subst hc
        refine ⟨by omega, ?_, ?_, ?_⟩
        · rw [ht2, Transport.tick_inc]
          ring
        · simp only [List.length_cons, hlen0]
          ring
        · intro sig' root1' hp' _
          have h12 := Except.ok.inj hp'
          have hsig : sig = sig' := congrArg Prod.fst h12
          rw [← hsig]
          rfl

/-- Witness for the amended C5 with a concrete 2-slot buffer. -/
theorem c5_ssrun_counts_witness :
    ssRun (augVal 0) (tpAt 0) (2 * 1) =
      .ok ([0, 0], .val 1 (0, 0) 0, (tpAt 0).inc.inc, 2) ∧
    ((2 : ℕ) = 1 + 1 ∧ (tpAt 0).inc.inc.tick = (tpAt 0).tick + (1 + 1) ∧
      ([0, 0] : List ℝ).length = 2 * 1 ∧
      (∀ sig root1, AugT.proc (augVal 0) (tpAt 0) = .ok (sig, root1) →
        1 ≤ 1 → ([0, 0] : List ℝ).take 2 = [sig.1, sig.2])) := by
  have hp0 : AugT.proc (augVal 0) (tpAt 0) =
      .ok (((0 : ℝ), (0 : ℝ)), augVal 0) := by
    rw [AugT.proc, if_pos (by decide)]
    rfl
  have htick : (tpAt 0).inc.tick = 1 := by
    rw [Transport.tick_inc]
    rfl
  have hp1 : AugT.proc (augVal 0) (tpAt 0).inc =
      .ok (((0 : ℝ), (0 : ℝ)), .val 1 (0, 0) 0) := by
    rw [AugT.proc, if_neg (by rw [htick]; simp [augVal, AugT.lastTick])]
    have hug : AugT.procUg (augVal 0) (tpAt 0).inc =
        .ok (((0 : ℝ), (0 : ℝ)), augVal 0) := by
      simp [AugT.procUg, augVal]
    rw [hug]
    simp [augVal, AugT.withMemo, htick]
  have hrun : ssRun (augVal 0) (tpAt 0) (2 * 1) =
      .ok ([0, 0], .val 1 (0, 0) 0, (tpAt 0).inc.inc, 2) := by
    rw [show (2 * 1 : ℕ) = 0 + 2 from rfl,
      ssRun_two_eq _ _ _ _ _ hp0, ssRun_zero_eq _ _ _ _ hp1]
  exact ⟨hrun, c5_ssrun_counts 1 (augVal 0) (tpAt 0) [0, 0]
    (.val 1 (0, 0) 0) ((tpAt 0).inc.inc) 2 hrun⟩

namespace AugT

/-- `Operate::clear` dispatched through `UGen::clear`
(`src/ugens/core.rs` 371-378) and the per-operator impls.
`Rand::clear` (osc.rs 298-302) matches no name at all; `Phase::clear`
(osc.rs 1138-1148) matches only `"vol"` and names starting with `"src"`,
which `Phase::set` rejects (`osc.rs` 1107-1116 accepts only `"osc"`), so the
discarded error makes it a no-op for every name; `WaveTable::clear`
(osc.rs 1340-1351) installs a fresh two-element zero table for `"table"`.
The `clear` impls of the misc processors (`clip`/`gain`/`offset`) live in
the absent `src/ugens/misc.rs` and are left as no-ops; no claim exercises
them. -/
def clear (g : AugT) (pname : String) : AugT :=
  match g with
  | .sine lt ls p1 p2 ph =>
    match pname with
    | "init_ph" => .sine lt ls (augVal 0) p2 ph
    | "freq" => .sine lt ls p1 (augVal 0) ph
    | _ => .sine lt ls p1 p2 ph
  | .tri lt ls p1 p2 ph =>
    match pname with
    | "init_ph" => .tri lt ls (augVal 0) p2 ph
    | "freq" => .tri lt ls p1 (augVal 0) ph
    | _ => .tri lt ls p1 p2 ph
  | .saw lt ls p1 p2 ph =>
    match pname with
    | "init_ph" => .saw lt ls (augVal 0) p2 ph
    | "freq" => .saw lt ls p1 (augVal 0) ph
    | _ => .saw lt ls p1 p2 ph
  | .pulse lt ls p1 p2 p3 ph =>
    match pname with
    | "init_ph" => .pulse lt ls (augVal 0) p2 p3 ph
    | "freq" => .pulse lt ls p1 (augVal 0) p3 ph
    | "duty" => .pulse lt ls p1 p2 (augVal 0) ph
    | _ => .pulse lt ls p1 p2 p3 ph
  | .rand lt ls rng fr c v => .rand lt ls rng fr c v
  | .phase lt ls root osc => .phase lt ls root osc
  | .oneshot lt ls osc eg =>
    match pname with
    | "osc" => .oneshot lt ls (augVal 0) eg
    | "eg" => .oneshot lt ls osc (augVal 0)
    | _ => .oneshot lt ls osc eg
  | .wavetable lt ls table ph =>
    match pname with
    | "table" => .wavetable lt ls (.tab 0 (0, 0) [0, 0]) ph
    | "ph" => .wavetable lt ls table (augVal 0)
    | _ => .wavetable lt ls table ph
  | .lpf lt ls fr q src i0 i1 o0 o1 =>
    match pname with
    | "freq" => .lpf lt ls (augVal 0) q src i0 i1 o0 o1
    | "q" => .lpf lt ls fr (augVal 0) src i0 i1 o0 o1
    | "src" => .lpf lt ls fr q (augVal 0) i0 i1 o0 o1
    | _ => .lpf lt ls fr q src i0 i1 o0 o1
  | .delay lt ls tm fb mx src buf =>
    match pname with
    | "time" => .delay lt ls (augVal 0) fb mx src buf
    | "feedback" => .delay lt ls tm (augVal 0) mx src buf
    | "mix" => .delay lt ls tm fb (augVal 0) src buf
    | "src" => .delay lt ls tm fb mx (augVal 0) buf
    | _ => .delay lt ls tm fb mx src buf
  | g => g

end AugT

/-- **C8** (counterexample): `Rand::clear("freq")` is a no-op — its match
arm list is empty (osc.rs 298-302) — so after clearing, the `freq` parameter
still holds `Val(5.0)`, not `Val(0.0)`. -/
theorem c8_rand_clear_noop_cex :
    AugT.clear (.rand 0 (0, 0) 0 (augVal 5) 0 0) "freq" =
      .rand 0 (0, 0) 0 (augVal 5) 0 0 ∧
    augVal 5 ≠ augVal 0 := by
  constructor
  · rfl
  · simp [augVal]

/-- **C8** (amended): `clear(name)` resets the named parameter to `Val(0.0)`
for the documented parameters of `sine`/`tri`/`saw`/`pulse`/`oneshot`/
`lpf`/`delay` and for `wavetable`'s `ph`; `Rand::clear` and `Phase::clear`
are no-ops for every name (Rand matches nothing; Phase matches only names
its own `set` rejects); `WaveTable::clear("table")` installs a fresh
two-element zero table `[0.0, 0.0]`, not an empty table. -/
theorem c8_clear_behavior :
    (∀ lt ls p1 p2 ph, AugT.clear (.sine lt ls p1 p2 ph) "freq" =
      .sine lt ls p1 (augVal 0) ph) ∧
    (∀ lt ls p1 p2 ph, AugT.clear (.sine lt ls p1 p2 ph) "init_ph" =
      .sine lt ls (augVal 0) p2 ph) ∧
    (∀ lt ls p1 p2 ph, AugT.clear (.tri lt ls p1 p2 ph) "freq" =
      .tri lt ls p1 (augVal 0) ph) ∧
    (∀ lt ls p1 p2 ph, AugT.clear (.saw lt ls p1 p2 ph) "freq" =
      .saw lt ls p1 (augVal 0) ph) ∧
    (∀ lt ls p1 p2 p3 ph, AugT.clear (.pulse lt ls p1 p2 p3 ph) "duty" =
      .pulse lt ls p1 p2 (augVal 0) ph) ∧
    (∀ lt ls osc eg, AugT.clear (.oneshot lt ls osc eg) "osc" =
      .oneshot lt ls (augVal 0) eg) ∧
    (∀ lt ls fr q src i0 i1 o0 o1,
      AugT.clear (.lpf lt ls fr q src i0 i1 o0 o1) "src" =
        .lpf lt ls fr q (augVal 0) i0 i1 o0 o1) ∧
    (∀ lt ls tm fb mx src buf,
      AugT.clear (.delay lt ls tm fb mx src buf) "time" =
        .delay lt ls (augVal 0) fb mx src buf) ∧
    (∀ lt ls rng fr c v name, AugT.clear (.rand lt ls rng fr c v) name =
      .rand lt ls rng fr c v) ∧
    (∀ lt ls root osc name, AugT.clear (.phase lt ls root osc) name =
      .phase lt ls root osc) ∧
    (∀ lt ls table ph, AugT.clear (.wavetable lt ls table ph) "table" =
      .wavetable lt ls (.tab 0 (0, 0) [0, 0]) ph) ∧
    (∀ lt ls table ph, AugT.clear (.wavetable lt ls table ph) "ph" =
      .wavetable lt ls table (augVal 0)) :=
  ⟨fun _ _ _ _ _ => rfl, fun _ _ _ _ _ => rfl, fun _ _ _ _ _ => rfl,
   fun _ _ _ _ _ => rfl, fun _ _ _ _ _ _ => rfl, fun _ _ _ _ => rfl,
   fun _ _ _ _ _ _ _ _ _ => rfl, fun _ _ _ _ _ _ _ => rfl,
   fun _ _ _ _ _ _ _ => rfl, fun _ _ _ _ _ => rfl,
   fun _ _ _ _ => rfl, fun _ _ _ _ => rfl⟩

/-- Digit run to a natural number (helper for the numeric parse model). -/
def digitsToNat (l : List Char) : ℕ :=
  l.foldl (fun a c => a * 10 + (c.toNat - '0'.toNat)) 0

/-- Modelled from the spec: `str::parse::<f64>` is the Rust standard
library, not part of this repository.  Modelled exactly on plain decimal
literals — optional sign, digits, optional fractional part — which covers
every input exercised here; any other shape (spaces included) fails, as in
Rust. -/
def parseF64 (s : String) : Option ℚ :=
  let cs := s.toList
  let signAndRest : Bool × List Char :=
    match cs with
    | '-' :: rest => (true, rest)
    | '+' :: rest => (false, rest)
    | _ => (false, cs)
  let neg := signAndRest.1
  let body := signAndRest.2
  let intPart := body.takeWhile (fun c => c.isDigit)
  let rest := body.dropWhile (fun c => c.isDigit)
  match rest with
  | [] =>
    if intPart.isEmpty then none
    else if neg then some (-(digitsToNat intPart : ℚ))
    else some (digitsToNat intPart : ℚ)
  | '.' :: frac =>
    if frac.all (fun c => c.isDigit) &&
        !(intPart.isEmpty && frac.isEmpty) then
      let v : ℚ := (digitsToNat intPart : ℚ) +
        (digitsToNat frac : ℚ) / (10 ^ frac.length : ℚ)
      some (if neg then -v else v)
    else none
  | _ => none

/-- `data.retain(|c| c != '\n' && c != ' ')`, the stripping every numeric
`set_str` performs before parsing (e.g. `src/ugens/osc.rs` 424-425). -/
def stripSpaceNL (s : String) : String :=
  ⟨s.toList.filter (fun c => c != '\n' && c != ' ')⟩

/-- `data.retain(|c| c != '\n')`, the stripping of `WaveTable::set_str` for
the `table` parameter (`src/ugens/osc.rs` 1307-1308). -/
def stripNL (s : String) : String :=
  ⟨s.toList.filter (fun c => c != '\n')⟩

/-- `Table::parse_str` (`src/ugens/core.rs` 114-124): trim, split on single
spaces, parse every token as `f64`; any failing token fails the parse. -/
def tableParseStr (data : String) : Option (List ℚ) :=
  (data.trim.splitOn " ").mapM parseF64

/-- `Phase::make_root` (`src/ugens/osc.rs` 1046-1056):
`Offset(1.0, Gain(0.5, Clip(-1.0, 1.0, u)))`. -/
def phaseMakeRoot (u : AugT) : AugT :=
  .offset 0 (0, 0) (augVal 1)
    (.gain 0 (0, 0) (augVal (1 / 2)) (.clip 0 (0, 0) (augVal (-1)) (augVal 1) u))

namespace AugT

/-- `Operate::set_str` dispatched through `UGen::set_str`
(`src/ugens/core.rs` 362-369: non-ugen payloads give `NotUgen`) and the
per-operator impls of `src/ugens/osc.rs` / `src/ugens/fx.rs`.  Every numeric
parameter strips spaces and newlines before parsing — except `Rand::set_str`
(osc.rs 282-296), which parses the raw string; `WaveTable::set_str` strips
only newlines for `table` and parses with `Table::parse_str`.  The misc
processors (`clip`/`gain`/`offset`) live in the absent `src/ugens/misc.rs`
and are modelled as rejecting every name; no claim exercises them. -/
def setStr (g : AugT) (pname : String) (data : String) :
    Except OperateError (AugT × Bool) :=
  match g with
  | .val _ _ _ => .error .notUgen
  | .tab _ _ _ => .error .notUgen
  | .pat _ _ _ => .error .notUgen
  | .sine lt ls p1 p2 ph =>
    let d := stripSpaceNL data
    match pname with
    | "init_ph" =>
      match parseF64 d with
      | some v => .ok (.sine lt ls (augVal (v : ℝ)) p2 ph, true)
      | none => .error (.cannotParseNumber ("sine/" ++ pname) d)
    | "freq" =>
      match parseF64 d with
      | some v => .ok (.sine lt ls p1 (augVal (v : ℝ)) ph, true)
      | none => .error (.cannotParseNumber ("sine/" ++ pname) d)
    | _ => .error (.paramNotFound ("sine/" ++ pname))
  | .tri lt ls p1 p2 ph =>
    let d := stripSpaceNL data
    match pname with
    | "init_ph" =>
      match parseF64 d with
      | some v => .ok (.tri lt ls (augVal (v : ℝ)) p2 ph, true)
      | none => .error (.cannotParseNumber ("tri/" ++ pname) d)
    | "freq" =>
      match parseF64 d with
      | some v => .ok (.tri lt ls p1 (augVal (v : ℝ)) ph, true)
      | none => .error (.cannotParseNumber ("tri/" ++ pname) d)
    | _ => .error (.paramNotFound ("tri/" ++ pname))
  | .saw lt ls p1 p2 ph =>
    let d := stripSpaceNL data
    match pname with
    | "init_ph" =>
      match parseF64 d with
      | some v => .ok (.saw lt ls (augVal (v : ℝ)) p2 ph, true)
      | none => .error (.cannotParseNumber ("saw/" ++ pname) d)
    | "freq" =>
      match parseF64 d with
      | some v => .ok (.saw lt ls p1 (augVal (v : ℝ)) ph, true)
      | none => .error (.cannotParseNumber ("saw/" ++ pname) d)
    | _ => .error (.paramNotFound ("saw/" ++ pname))
  | .pulse lt ls p1 p2 p3 ph =>
    let d := stripSpaceNL data
    match pname with
    | "init_ph" =>
      match parseF64 d with
      | some v => .ok (.pulse lt ls (augVal (v : ℝ)) p2 p3 ph, true)
      | none => .error (.cannotParseNumber ("pulse/" ++ pname) d)
    | "freq" =>
      match parseF64 d with
      | some v => .ok (.pulse lt ls p1 (augVal (v : ℝ)) p3 ph, true)
      | none => .error (.cannotParseNumber ("pulse/" ++ pname) d)
    | "duty" =>
      match parseF64 d with
      | some v => .ok (.pulse lt ls p1 p2 (augVal (v : ℝ)) ph, true)
      | none => .error (.cannotParseNumber ("pulse/" ++ pname) d)
    | _ => .error (.paramNotFound ("pulse/" ++ pname))
  | .rand lt ls rng fr c v =>
    match pname with
    | "freq" =>
      match parseF64 data with
      | some w => .ok (.rand lt ls rng (augVal (w : ℝ)) c v, true)
      | none => .error (.cannotParseNumber ("rand/" ++ pname) data)
    | _ => .error (.paramNotFound ("rand/" ++ pname))
  | .phase lt ls root osc =>
    let d := stripSpaceNL data
    match pname with
    | "osc" =>
      match parseF64 d with
      | some v =>
        .ok (.phase lt ls (phaseMakeRoot (augVal (v : ℝ))) (augVal (v : ℝ)),
          true)
      | none => .error (.cannotParseNumber ("phase/" ++ pname) d)
    | _ => .error (.paramNotFound ("phase/" ++ pname))
  | .oneshot lt ls osc eg =>
    let d := stripSpaceNL data
    match pname with
    | "osc" =>
      match parseF64 d with
      | some v => .ok (.oneshot lt ls (augVal (v : ℝ)) eg, true)
      | none => .error (.cannotParseNumber ("oneshot/" ++ pname) d)
    | "eg" =>
      match parseF64 d with
      | some v => .ok (.oneshot lt ls osc (augVal (v : ℝ)), true)
      | none => .error (.cannotParseNumber ("oneshot/" ++ pname) d)
    | _ => .error (.paramNotFound ("oneshot/" ++ pname))
  | .wavetable lt ls table ph =>
    match pname with
    | "table" =>
      let d := stripNL data
      match tableParseStr d with
      | some vs =>
        .ok (.wavetable lt ls (.tab 0 (0, 0) (vs.map (fun q => (q : ℝ)))) ph,
          true)
      | none => .error (.cannotParseNumber ("wavetable/" ++ pname) d)
    | "ph" =>
      let d := stripSpaceNL data
      match parseF64 d with
      | some v => .ok (.wavetable lt ls table (augVal (v : ℝ)), true)
      | none => .error (.cannotParseNumber ("wavetable/" ++ pname) d)
    | _ => .error (.paramNotFound ("wavetable/" ++ pname))
  | .lpf lt ls fr q src i0 i1 o0 o1 =>
    let d := stripSpaceNL data
    match pname with
    | "freq" =>
      match parseF64 d with
      | some v => .ok (.lpf lt ls (augVal (v : ℝ)) q src i0 i1 o0 o1, true)
      | none => .error (.cannotParseNumber ("lpf/" ++ pname) d)
    | "q" =>
      match parseF64 d with
      | some v => .ok (.lpf lt ls fr (augVal (v : ℝ)) src i0 i1 o0 o1, true)
      | none => .error (.cannotParseNumber ("lpf/" ++ pname) d)
    | "src" =>
      match parseF64 d with
      | some v => .ok (.lpf lt ls fr q (augVal (v : ℝ)) i0 i1 o0 o1, true)
      | none => .error (.cannotParseNumber ("lpf/" ++ pname) d)
    | _ => .error (.paramNotFound ("lpf/" ++ pname))
  | .delay lt ls tm fb mx src buf =>
    let d := stripSpaceNL data
    match pname with
    | "time" =>
      match parseF64 d with
      | some v => .ok (.delay lt ls (augVal (v : ℝ)) fb mx src buf, true)
      | none => .error (.cannotParseNumber ("delay/" ++ pname) d)
    | "feedback" =>
      match parseF64 d with
      | some v => .ok (.delay lt ls tm (augVal (v : ℝ)) mx src buf, true)
      | none => .error (.cannotParseNumber ("delay/" ++ pname) d)
    | "mix" =>
      match parseF64 d with
      | some v => .ok (.delay lt ls tm fb (augVal (v : ℝ)) src buf, true)
      | none => .error (.cannotParseNumber ("delay/" ++ pname) d)
    | "src" =>
      match parseF64 d with
      | some v => .ok (.delay lt ls tm fb mx (augVal (v : ℝ)) buf, true)
      | none => .error (.cannotParseNumber ("delay/" ++ pname) d)
    | _ => .error (.paramNotFound ("delay/" ++ pname))
  | .clip _ _ _ _ _ => .error (.paramNotFound ("clip/" ++ pname))
  | .gain _ _ _ _ => .error (.paramNotFound ("gain/" ++ pname))
  | .offset _ _ _ _ => .error (.paramNotFound ("offset/" ++ pname))

end AugT

/-- **C10** (counterexample): `Rand::set_str` does not strip spaces before
parsing — it hands the raw string to the parser (osc.rs 282-296) — so for
the in-claim input `"4 4 0"` it fails with `CannotParseNumber` while
`Sine::set_str` (which strips, osc.rs 423-450) succeeds and stores
`Val(440.0)`. -/
theorem c10_rand_set_str_no_strip_cex :
    AugT.setStr (.rand 0 (0, 0) 0 (augVal 5) 0 0) "freq" "4 4 0" =
      .error (.cannotParseNumber "rand/freq" "4 4 0") ∧
    AugT.setStr (.sine 0 (0, 0) (augVal 0) (augVal 5) 0) "freq" "4 4 0" =
      .ok (.sine 0 (0, 0) (augVal 0) (augVal ((440 : ℚ) : ℝ)) 0, true) := by
  have hfail : parseF64 "4 4 0" = none := by decide
  have hok : parseF64 (stripSpaceNL "4 4 0") = some 440 := by decide
  constructor
  · simp [AugT.setStr, hfail]
  · simp [AugT.setStr, hok]

/-- **C10** (amended): the numeric parameters of `sine`, `tri`, `saw`,
`pulse`, `phase`, `oneshot`, `wavetable` (`ph`), `lpf` and `delay` all strip
every space and newline from the input before parsing, so `"4 4 0"` parses
as `440.0`; `Rand::set_str` alone does not strip, so the same input fails
with `CannotParseNumber`. -/
theorem c10_set_str_strips :
    (∀ lt ls p1 p2 ph, AugT.setStr (.sine lt ls p1 p2 ph) "freq" "4 4 0" =
      .ok (.sine lt ls p1 (augVal ((440 : ℚ) : ℝ)) ph, true)) ∧
    (∀ lt ls p1 p2 ph, AugT.setStr (.tri lt ls p1 p2 ph) "freq" "4 4 0" =
      .ok (.tri lt ls p1 (augVal ((440 : ℚ) : ℝ)) ph, true)) ∧
    (∀ lt ls p1 p2 ph, AugT.setStr (.saw lt ls p1 p2 ph) "init_ph" "4 4 0" =
      .ok (.saw lt ls (augVal ((440 : ℚ) : ℝ)) p2 ph, true)) ∧
    (∀ lt ls p1 p2 p3 ph,
      AugT.setStr (.pulse lt ls p1 p2 p3 ph) "duty" "4 4 0" =
        .ok (.pulse lt ls p1 p2 (augVal ((440 : ℚ) : ℝ)) ph, true)) ∧
    (∀ lt ls root osc, AugT.setStr (.phase lt ls root osc) "osc" "4 4 0" =
      .ok (.phase lt ls (phaseMakeRoot (augVal ((440 : ℚ) : ℝ)))
        (augVal ((440 : ℚ) : ℝ)), true)) ∧
    (∀ lt ls osc eg, AugT.setStr (.oneshot lt ls osc eg) "osc" "4 4 0" =
      .ok (.oneshot lt ls (augVal ((440 : ℚ) : ℝ)) eg, true)) ∧
    (∀ lt ls table ph,
      AugT.setStr (.wavetable lt ls table ph) "ph" "4 4 0" =
        .ok (.wavetable lt ls table (augVal ((440 : ℚ) : ℝ)), true)) ∧
    (∀ lt ls fr q src i0 i1 o0 o1,
      AugT.setStr (.lpf lt ls fr q src i0 i1 o0 o1) "q" "4 4 0" =
        .ok (.lpf lt ls fr (augVal ((440 : ℚ) : ℝ)) src i0 i1 o0 o1, true)) ∧
    (∀ lt ls tm fb mx src buf,
      AugT.setStr (.delay lt ls tm fb mx src buf) "time" "4 4 0" =
        .ok (.delay lt ls (augVal ((440 : ℚ) : ℝ)) fb mx src buf, true)) ∧
    (∀ lt ls rng fr c v,
      AugT.setStr (.rand lt ls rng fr c v) "freq" "4 4 0" =
        .error (.cannotParseNumber "rand/freq" "4 4 0")) := by
  have hfail : parseF64 "4 4 0" = none := by decide
  have hok : parseF64 (stripSpaceNL "4 4 0") = some 440 := by decide
  refine ⟨?_, ?_, ?_, ?_, ?_, ?_, ?_, ?_, ?_, ?_⟩ <;>
    intros <;> simp [AugT.setStr, hok, hfail]

mutual
/-- `Value` as consumed by the dump routines (`src/ugens/core.rs` 17-24):
`Number`, `Table`, `Pattern`, `Ug` and `Shared`.  In `dump_value`
(src/tapirlisp/dump.rs 39-47) a `Value::Ug(aug)` is rendered by dumping
`aug.dump(shared)`, a `UgNode`; here the `ug`/`shared` constructors carry
that `UgNode` directly. -/
inductive DValue : Type where
  | number (n : ℝ)
  | table (vs : List ℝ)
  | pattern (ts : List String)
  | ug (node : DUgNode)
  | shared (n : ℕ) (node : DUgNode)
/-- `UgNode` (`src/ugens/core.rs` 32-36). -/
inductive DUgNode : Type where
  | val (v : DValue)
  | ug (name : String) (slots : List DSlot)
  | ugRest (name : String) (slots : List DSlot) (rest : List DValue)
/-- `Slot` (`src/ugens/core.rs` 26-30); the `ug : Aug` field is used only by
the shared-node sort and is omitted here. -/
inductive DSlot : Type where
  | mk (name : String) (value : DValue)
end

/-- The per-element loop of `dump_table` / `dump_list`
(src/tapirlisp/dump.rs 9-36): append each item, with a single space after
every item except the last. -/
def dumpJoin : List String → String
  | [] => ""
  | [x] => x
  | x :: y :: xs => x ++ " " ++ dumpJoin (y :: xs)

/-- `dump_table` (src/tapirlisp/dump.rs 9-22): `"(" name " " items ")"`. -/
def dumpTable (numStr : ℝ → String) (name : String) (vs : List ℝ) : String :=
  "(" ++ name ++ " " ++ dumpJoin (vs.map numStr) ++ ")"

/-- `dump_list` (src/tapirlisp/dump.rs 24-36). -/
def dumpList (name : String) (vs : List String) : String :=
  "(" ++ name ++ " " ++ dumpJoin vs ++ ")"

mutual
/-- `dump_value` (src/tapirlisp/dump.rs 39-47).  `n.to_string()` for floats
is host formatting (Rust std), modelled by the parameter `numStr`. -/
def dumpValue (numStr : ℝ → String) : DValue → String
  | .number n => numStr n
  | .table vals => dumpTable numStr "table" vals
  | .pattern pat => dumpList "pat" pat
  | .ug node => dumpUnit numStr node
  | .shared n _ => "shared-" ++ toString n
/-- `dump_unit` (src/tapirlisp/dump.rs 124-130) with `dump_ug` (49-77)
inlined: `"(" name " "` then the slots (each followed by a space when its
dump is nonempty and it is not last, or unconditionally when rest values
follow), then the rest values separated by single spaces, then `")"`. -/
def dumpUnit (numStr : ℝ → String) : DUgNode → String
  | .val v => dumpValue numStr v
  | .ug name slots => "(" ++ name ++ " " ++ dumpSlots numStr false slots ++ ")"
  | .ugRest name slots rest =>
    "(" ++ name ++ " " ++ dumpSlots numStr (!rest.isEmpty) slots ++
      dumpRest numStr rest ++ ")"
/-- The slot loop of `dump_ug` (src/tapirlisp/dump.rs 58-66): the separator
after slot `i` is printed iff `(dump.len() != 0 && i != slots.len()-1) ||
values.len() > 0`. -/
def dumpSlots (numStr : ℝ → String) (hasValues : Bool) : List DSlot → String
  | [] => ""
  | [.mk _ v] =>
    let d := dumpValue numStr v
    d ++ (if hasValues then " " else "")
  | .mk _ v :: s :: rest =>
    let d := dumpValue numStr v
    d ++ (if d.length ≠ 0 || hasValues then " " else "") ++
      dumpSlots numStr hasValues (s :: rest)
/-- The rest-values loop of `dump_ug` (src/tapirlisp/dump.rs 67-74). -/
def dumpRest (numStr : ℝ → String) : List DValue → String
  | [] => ""
  | [v] => dumpValue numStr v
  | v :: w :: vs => dumpValue numStr v ++ " " ++ dumpRest numStr (w :: vs)
end

theorem intercalate_go_eq (ys : List String) :
    ∀ x, String.intercalate.go x " " ys = dumpJoin (x :: ys) := by
  induction ys with
  | nil => intro x; rfl
  | cons y ys ih =>
    intro x
    have h1 : String.intercalate.go x " " (y :: ys) =
        String.intercalate.go (x ++ " " ++ y) " " ys := rfl
    rw [h1, ih (x ++ " " ++ y)]
    cases ys with
    | nil => rfl
    | cons z zs => simp [dumpJoin, String.append_assoc]

/-- The slot/value loops of the dump print exactly the items separated by
single spaces. -/
theorem dumpJoin_eq_intercalate :
    ∀ l : List String, dumpJoin l = String.intercalate " " l := by
  intro l
  cases l with
  | nil => rfl
  | cons x xs =>
    have h : String.intercalate " " (x :: xs) =
        String.intercalate.go x " " xs := rfl
    rw [h, intercalate_go_eq xs x]

/-- **C9** (`dump_value`, src/tapirlisp/dump.rs 39-47, with `dump_table`
9-22 and `dump_list` 24-36): `Value::Shared(i, _)` renders as the token
`shared-<i>`; `Value::Number(n)` as `n.to_string()` (host float formatting,
the parameter `numStr`); `Value::Table(vs)` as `(table v1 v2 ...)` and
`Value::Pattern(ts)` as `(pat t1 t2 ...)` with single spaces between
values; and `Value::Ug(a)` by recursively dumping the node. -/
theorem c9_dump_value (numStr : ℝ → String) :
    (∀ (i : ℕ) (node : DUgNode),
      dumpValue numStr (.shared i node) = "shared-" ++ toString i) ∧
    (∀ n : ℝ, dumpValue numStr (.number n) = numStr n) ∧
    (∀ vs : List ℝ, dumpValue numStr (.table vs) =
      "(table " ++ String.intercalate " " (vs.map numStr) ++ ")") ∧
    (∀ ts : List String, dumpValue numStr (.pattern ts) =
      "(pat " ++ String.intercalate " " ts ++ ")") ∧
    (∀ node : DUgNode, dumpValue numStr (.ug node) = dumpUnit numStr node) := by
  refine ⟨fun i node => ?_, fun n => ?_, fun vs => ?_, fun ts => ?_,
    fun node => ?_⟩
  · simp only [dumpValue]
  · simp only [dumpValue]
  · simp only [dumpValue, dumpTable, ← dumpJoin_eq_intercalate]
    simp [String.append_assoc]
  · simp only [dumpValue, dumpList, ← dumpJoin_eq_intercalate]
    simp [String.append_assoc]
  · simp only [dumpValue]
